import Mathlib

/-
Verification of the artifact-component classification subsystem
(`build_tools/_therock_utils/artifact_builder.py`).

The embedding below mirrors the Python source structurally:
* Python dicts that are only inserted into are modelled as association
  lists in insertion order, looked up by first match (`alookup`).
* Python sets of strings are modelled as duplicate-free lists built with
  `insertStr`; only membership is ever consumed.
* The glob-matching primitive (`pattern_match.py`) is an external
  collaborator that is not part of this tree; a glob pattern's semantics
  is therefore an abstract parameter `g : Glob` mapping (pattern, relpath)
  to a boolean.  Pattern texts themselves (e.g. the component-default
  pattern strings) are kept verbatim from the source.
* The filesystem is an abstract map `FS` from a base-directory relpath to
  the list of `(relpath, direntry)` pairs found under it (`none` when the
  directory does not exist).
-/

/-- Metadata of a scanned directory entry (`os.DirEntry`): the model keeps
the one bit the subsystem consumes, whether the entry is a directory. -/
structure DirEntry where
  isDir : Bool
deriving DecidableEq

/-- Semantics of the external glob primitive: `g pattern relpath` tells
whether `pattern` matches `relpath`.  The glob syntax itself is out of
scope, so it stays abstract. -/
abbrev Glob := String → String → Bool

/-- Abstract filesystem: contents of each base directory by relpath, or
`none` when the directory does not exist on disk. -/
abbrev FS := String → Option (List (String × DirEntry))

/-- Association-list lookup by first match, mirroring a Python dict whose
keys are never overwritten in the modelled code paths. -/
def alookup {β : Type} : List (String × β) → String → Option β
  | [], _ => none
  | kv :: rest, k => if kv.1 = k then some kv.2 else alookup rest k

/-- Keys of an association list, in insertion order. -/
def keysOf {β : Type} (l : List (String × β)) : List String := l.map Prod.fst

/-- Set-insert for string sets modelled as duplicate-free lists. -/
def insertStr (l : List String) (p : String) : List String :=
  if p ∈ l then l else l ++ [p]

/-- Set-union for string sets modelled as lists (`a.update(b)`). -/
def unionStr (a b : List String) : List String := b.foldl insertStr a

/-- Match predicate over ordered include / exclude / force-include glob
pattern lists (`MatchPredicate` of `pattern_match.py`). -/
structure MatchPredicate where
  includes : List String := []
  excludes : List String := []
  force_includes : List String := []
deriving DecidableEq

/-- Membership of `relpath` in an ordered pattern list under glob
semantics `g`. -/
def any_match (g : Glob) (patterns : List String) (relpath : String) : Bool :=
  patterns.any (fun p => g p relpath)

/-- Modelled from the spec: `MatchPredicate.matches` lives in
`pattern_match.py`, which is not part of this tree.  Per the spec a path
matches when it matches a force-include pattern, or when it passes the
include patterns and matches no exclude pattern; an empty include list
passes everything, which is what the repository's own tests pin down
(`testUnmatchedUndeclared` fails verification under an empty policy and
`testHappyPath` passes once an exclude pattern is added, so the policy
predicate with no includes must match every path). -/
def MatchPredicate.matches (g : Glob) (mp : MatchPredicate) (relpath : String) : Bool :=
  any_match g mp.force_includes relpath ||
    ((mp.includes.isEmpty || any_match g mp.includes relpath) &&
      !any_match g mp.excludes relpath)

/-- Defaults to apply to artifact merging by component name
(`ComponentDefaults`).  `extends_list` carries the Python `extends`
field, renamed because `extends` is a Lean keyword. -/
structure ComponentDefaults where
  includes : List String := []
  excludes : List String := []
  extends_list : List String := []
deriving DecidableEq

/-- The default-policy registry (`ComponentDefaults.ALL`) with the exact
pattern strings and chain from the source, in registration order. -/
def ComponentDefaults.ALL : List (String × ComponentDefaults) :=
  [("lib",
    { includes := ["**/*.dll", "**/*.dylib", "**/*.dylib.*", "**/*.so", "**/*.so.*"]
      excludes := []
      extends_list := [] }),
   ("run", { includes := [], excludes := [], extends_list := ["lib"] }),
   ("dbg",
    { includes := [".build-id/**/*.debug"]
      excludes := []
      extends_list := ["run"] }),
   ("dev",
    { includes := ["**/*.a", "**/*.lib", "**/cmake/**", "**/include/**",
                   "**/share/modulefiles/**", "**/pkgconfig/**"]
      excludes := []
      extends_list := ["dbg"] }),
   ("doc", { includes := ["**/share/doc/**"], excludes := [], extends_list := ["dev"] })]

/-- Registry lookup with auto-vivification of an empty default for
unknown names (`ComponentDefaults.get`). -/
def ComponentDefaults.get (name : String) : ComponentDefaults :=
  (alookup ComponentDefaults.ALL name).getD {}

/-- One base-directory record of a component record, after the scalar
normalizations the parser performs: `_dup_list_or_str` has already turned
str-or-list fields into lists, and `_evaluate_optional` has already
resolved the optional field against the current platform to a boolean. -/
structure BasedirRecord where
  default_patterns : Bool := true
  includes : List String := []
  excludes : List String := []
  force_includes : List String := []
  optional : Bool := false
deriving DecidableEq

/-- Resolved per-(component, basedir) descriptor
(`ComponentBasedirDescriptor`). -/
structure ComponentBasedirDescriptor where
  basedir_relpath : String
  optional : Bool
  predicate : MatchPredicate
deriving DecidableEq

/-- Construction of a `ComponentBasedirDescriptor` from its record
(`ComponentBasedirDescriptor.__init__`): registry default patterns are
appended after the explicit ones when `default_patterns` is enabled. -/
def ComponentBasedirDescriptor.ofRecord (defaults : ComponentDefaults) (relpath : String)
    (r : BasedirRecord) : ComponentBasedirDescriptor :=
  { basedir_relpath := relpath
    optional := r.optional
    predicate :=
      { includes := r.includes ++ (if r.default_patterns then defaults.includes else [])
        excludes := r.excludes ++ (if r.default_patterns then defaults.excludes else [])
        force_includes := r.force_includes } }

/-- One component record of the descriptor document: an optional explicit
extends list and the dict-valued base-directory records in document
order. -/
structure ComponentRecord where
  extends_opt : Option (List String) := none
  basedirs : List (String × BasedirRecord) := []
deriving DecidableEq

/-- Resolved component descriptor (`ComponentDescriptor`). -/
structure ComponentDescriptor where
  name : String
  extends_list : List String
  basedirs : List (String × ComponentBasedirDescriptor)
deriving DecidableEq

/-- Construction of a `ComponentDescriptor` from its record
(`ComponentDescriptor.__init__`): the extends list is the explicit one
when present, else the registry default's. -/
def ComponentDescriptor.ofRecord (name : String) (r : ComponentRecord) : ComponentDescriptor :=
  let defaults := ComponentDefaults.get name
  { name := name
    extends_list :=
      match r.extends_opt with
      | none => defaults.extends_list
      | some e => e
    basedirs :=
      r.basedirs.map (fun br => (br.1, ComponentBasedirDescriptor.ofRecord defaults br.1 br.2)) }

/-- Global options (`OptionsDescriptor`): the unmatched-file policy
predicate used only by the lint pass. -/
structure OptionsDescriptor where
  unmatched_pattern : MatchPredicate
deriving DecidableEq

/-- Construction of `OptionsDescriptor` from the normalized
`unmatched_include` / `unmatched_exclude` lists. -/
def OptionsDescriptor.ofRecord (unmatched_include unmatched_exclude : List String) :
    OptionsDescriptor :=
  ⟨{ includes := unmatched_include, excludes := unmatched_exclude, force_includes := [] }⟩

/-- Parsed artifact descriptor (`ArtifactDescriptor`). -/
structure ArtifactDescriptor where
  components : List (String × ComponentDescriptor)
  options : OptionsDescriptor
deriving DecidableEq

/-- Construction of an `ArtifactDescriptor` (`ArtifactDescriptor.__init__`):
the declared components in document order, then a synthesized empty
component for every registry default name absent from the document. -/
def ArtifactDescriptor.ofRecord (components_record : List (String × ComponentRecord))
    (options : OptionsDescriptor) : ArtifactDescriptor :=
  { components :=
      components_record.map (fun nr => (nr.1, ComponentDescriptor.ofRecord nr.1 nr.2)) ++
        (ComponentDefaults.ALL.map Prod.fst).filterMap (fun n =>
          if (components_record.map Prod.fst).contains n then none
          else some (n, ComponentDescriptor.ofRecord n {}))
    options := options }

/-- A `PatternMatcher` of `pattern_match.py`, as the scanner consumes it:
its table of `(relpath, direntry)` entries in scan/insertion order
(`matches()` enumerates them, `add_entry` appends, `all` is the keyed
table). -/
abbrev PatternMatcher := List (String × DirEntry)

/-- Per-component classification result (`ComponentContents`). -/
structure ComponentContents where
  component_descriptor : ComponentDescriptor
  transitive_relpaths : List String
  basedir_contents : List (String × PatternMatcher)
deriving DecidableEq

/-- The scanner's state (`ComponentScanner` instance fields).  `walk_log`
is instrumentation absent from the source: it records one element per
filesystem walk (`PatternMatcher.add_basedir` call), so that "each base
directory is walked at most once" can be stated about events. -/
structure ComponentScanner where
  basedir_cache : List (String × PatternMatcher)
  components : List (String × ComponentContents)
  all_entries : List (String × DirEntry)
  matched_relpaths : List String
  missing_basedirs : List String
  walk_log : List String
deriving DecidableEq

/-- The scanner's initial state. -/
def ComponentScanner.init : ComponentScanner :=
  { basedir_cache := [], components := [], all_entries := []
    matched_relpaths := [], missing_basedirs := [], walk_log := [] }

/-- Lazy, memoized base-directory scan (`ComponentScanner._get_basedir`):
on the first reference to an existing directory the walk happens and the
result is cached; a missing directory is recorded in `missing_basedirs`
and an empty matcher is returned (and nothing is cached). -/
def ComponentScanner.get_basedir (fs : FS) (s : ComponentScanner) (basedir : String) :
    PatternMatcher × ComponentScanner :=
  match alookup s.basedir_cache basedir with
  | some pm => (pm, s)
  | none =>
      match fs basedir with
      | some entries =>
          (entries,
            { s with
              basedir_cache := s.basedir_cache ++ [(basedir, entries)]
              walk_log := s.walk_log ++ [basedir] })
      | none =>
          ([], { s with missing_basedirs := insertStr s.missing_basedirs basedir })

/-- Body of the per-entry loop of `ComponentScanner._populate_component`:
entries already transitively claimed are skipped outright; otherwise the
entry is recorded into the first-seen `all_entries` table, and on a
predicate match it is added to the destination matcher, the global
matched set and the component's transitive set. -/
def ComponentScanner.process_entries (g : Glob) (bd : ComponentBasedirDescriptor) :
    List (String × DirEntry) → PatternMatcher → ComponentContents → ComponentScanner →
      PatternMatcher × ComponentContents × ComponentScanner
  | [], dest, c, s => (dest, c, s)
  | (p, e) :: rest, dest, c, s =>
      if p ∈ c.transitive_relpaths then
        ComponentScanner.process_entries g bd rest dest c s
      else
        let s1 :=
          if p ∈ keysOf s.all_entries then s
          else { s with all_entries := s.all_entries ++ [(p, e)] }
        if bd.predicate.matches g p then
          ComponentScanner.process_entries g bd rest (dest ++ [(p, e)])
            { c with transitive_relpaths := c.transitive_relpaths ++ [p] }
            { s1 with matched_relpaths := insertStr s1.matched_relpaths p }
        else
          ComponentScanner.process_entries g bd rest dest c s1

/-- The per-basedir loop of `ComponentScanner._populate_component`: each
base directory is fetched (lazily scanned), its entries are classified,
and the fresh destination matcher is bound under the basedir relpath. -/
def ComponentScanner.process_basedirs (g : Glob) (fs : FS) :
    List ComponentBasedirDescriptor → ComponentContents → ComponentScanner →
      ComponentContents × ComponentScanner
  | [], c, s => (c, s)
  | bd :: rest, c, s =>
      let pm_s := ComponentScanner.get_basedir fs s bd.basedir_relpath
      let r := ComponentScanner.process_entries g bd pm_s.1 [] c pm_s.2
      ComponentScanner.process_basedirs g fs rest
        { r.2.1 with
          basedir_contents := r.2.1.basedir_contents ++ [(bd.basedir_relpath, r.1)] }
        r.2.2

/-- Population of one component (`ComponentScanner._populate_component`):
the transitive claimed set is seeded from the union of the extended
components' claimed sets, each base directory is processed, and the
finished contents are stored under the component's name. -/
def ComponentScanner.populate_component (g : Glob) (fs : FS) (s : ComponentScanner)
    (cd : ComponentDescriptor) (ext : List ComponentContents) : ComponentScanner :=
  let seed := ext.foldl (fun acc ec => unionStr acc ec.transitive_relpaths) []
  let c0 : ComponentContents :=
    { component_descriptor := cd, transitive_relpaths := seed, basedir_contents := [] }
  let r := ComponentScanner.process_basedirs g fs (cd.basedirs.map Prod.snd) c0 s
  { r.2 with components := r.2.components ++ [(cd.name, r.1)] }

/-- Resolution of an extends list against the finished components
(`ComponentScanner._resolve_extends`): `none` when any name is not yet
populated. -/
def ComponentScanner.resolve_extends (s : ComponentScanner) :
    List String → Option (List ComponentContents)
  | [] => some []
  | n :: rest =>
      match alookup s.components n, ComponentScanner.resolve_extends s rest with
      | some c, some l => some (c :: l)
      | _, _ => none

/-- One pass over the worklist (the inner `for` of the constructor loop):
components whose extends all resolve are populated in order; the rest are
deferred, in order, to the next worklist. -/
def ComponentScanner.scan_pass (g : Glob) (fs : FS) :
    List ComponentDescriptor → ComponentScanner → List ComponentDescriptor →
      ComponentScanner × List ComponentDescriptor
  | [], s, next => (s, next)
  | cd :: rest, s, next =>
      match ComponentScanner.resolve_extends s cd.extends_list with
      | some ext =>
          ComponentScanner.scan_pass g fs rest
            (ComponentScanner.populate_component g fs s cd ext) next
      | none => ComponentScanner.scan_pass g fs rest s (next ++ [cd])

/-- The graph-error message raised on a pass with no forward progress:
every remaining component paired with its (full) extends list, mirroring
the source's join. -/
def graph_error_message (worklist : List ComponentDescriptor) : String :=
  "The following components have non existing or circular extends: " ++
    String.intercalate ", "
      (worklist.map (fun cd => cd.name ++ " -> " ++ String.intercalate "|" cd.extends_list))

/-- The worklist loop of the constructor, fueled for termination.  The
source loops while the worklist is non-empty and raises when a pass made
no forward progress; a pass with progress strictly shrinks the worklist,
so fuel `worklist.length` (as supplied by `ComponentScanner.run`) always
suffices and the fuel-exhaustion branch is unreachable. -/
def ComponentScanner.scan_loop (g : Glob) (fs : FS) :
    Nat → ComponentScanner → List ComponentDescriptor → Except String ComponentScanner
  | _, s, [] => .ok s
  | 0, _, worklist => .error (graph_error_message worklist)
  | fuel + 1, s, worklist =>
      let r := ComponentScanner.scan_pass g fs worklist s []
      if r.2.length < worklist.length then
        ComponentScanner.scan_loop g fs fuel r.1 r.2
      else
        .error (graph_error_message r.2)

/-- Whole-classification entry point (`ComponentScanner.__init__`): run
the worklist loop from the initial state over all descriptors in
descriptor order. -/
def ComponentScanner.run (g : Glob) (fs : FS) (ad : ArtifactDescriptor) :
    Except String ComponentScanner :=
  let worklist := ad.components.map Prod.snd
  ComponentScanner.scan_loop g fs worklist.length ComponentScanner.init worklist

/-- The `unmatched_files` property: observed entries that were never
claimed, with directory entries excluded. -/
def ComponentScanner.unmatched_files (s : ComponentScanner) : List (String × DirEntry) :=
  s.all_entries.filter (fun pe => !s.matched_relpaths.contains pe.1 && !pe.2.isDir)

/-- Scan of one component's populated basedirs for the first one that was
recorded missing yet is non-optional, in insertion order (the inner loop
of `ComponentScanner.verify`).  A basedir absent from the component's
descriptor cannot arise for scanner-built contents and is skipped. -/
def ComponentContents.first_missing_required (missing : List String) (c : ComponentContents) :
    List (String × PatternMatcher) → Option String
  | [] => none
  | (bdname, _) :: rest =>
      match alookup c.component_descriptor.basedirs bdname with
      | some bdd =>
          if missing.contains bdname && !bdd.optional then some bdname
          else ComponentContents.first_missing_required missing c rest
      | none => ComponentContents.first_missing_required missing c rest

/-- Scan of all components, in population order, for the first
(basedir, component-name) pair that fails the missing-directory check
(the outer loop of `ComponentScanner.verify`). -/
def ComponentScanner.first_missing_required (s : ComponentScanner) :
    List (String × ComponentContents) → Option (String × String)
  | [] => none
  | (cname, c) :: rest =>
      match ComponentContents.first_missing_required s.missing_basedirs c c.basedir_contents with
      | some bdname => some (bdname, cname)
      | none => ComponentScanner.first_missing_required s rest

/-- The undeclared-unmatched list computed by `ComponentScanner.verify`:
unmatched files accepted by the global unmatched predicate, in observed
order (the source collects them into a set; `all_entries` keys are unique
so the orders differ but the elements agree). -/
def ComponentScanner.undeclared_relpaths (g : Glob) (ad : ArtifactDescriptor)
    (s : ComponentScanner) : List String :=
  (s.unmatched_files.filter
      (fun pe => ad.options.unmatched_pattern.matches g pe.1)).map Prod.fst

/-- The verification pass (`ComponentScanner.verify`): raise at the first
missing non-optional basedir; otherwise fail when any unmatched file is
accepted by the unmatched predicate, naming all of them. -/
def ComponentScanner.verify (g : Glob) (ad : ArtifactDescriptor) (s : ComponentScanner) :
    Except String Unit :=
  match ComponentScanner.first_missing_required s s.components with
  | some bc =>
      .error ("Directory " ++ bc.1 ++ " of " ++ bc.2 ++
        ": marked non-optional but does not exist")
  | none =>
      let undeclared := ComponentScanner.undeclared_relpaths g ad s
      if undeclared.isEmpty then .ok ()
      else
        .error ("Unmatched artifact files. To allow these, add an " ++
          "options.unmatched_exclude list to the artifact descriptor: " ++
          String.intercalate ", " undeclared)

/-- Membership of a relpath in a component's own per-basedir matched
results: `p` appears in the destination matcher of some base directory of
the component. -/
def ownMem (c : ComponentContents) (p : String) : Prop :=
  ∃ bd dest, (bd, dest) ∈ c.basedir_contents ∧ p ∈ keysOf dest

/-- Direct extension between finished components, read off the stored
contents: `b`'s descriptor names `a` in its extends list. -/
def Extends1 (comps : List (String × ComponentContents)) (b a : String) : Prop :=
  ∃ cb, alookup comps b = some cb ∧ a ∈ cb.component_descriptor.extends_list

/-- Transitive (one or more steps) extension between finished
components. -/
def ExtendsTrans (comps : List (String × ComponentContents)) : String → String → Prop :=
  Relation.TransGen (Extends1 comps)

lemma mem_insertStr {l : List String} {p q : String} :
    p ∈ insertStr l q ↔ p ∈ l ∨ p = q := by
  by_cases h : q ∈ l
  · simp only [insertStr, if_pos h]
    constructor
    · exact Or.inl
    · rintro (hp | rfl)
      · exact hp
      · exact h
  · simp [insertStr, if_neg h]

lemma mem_unionStr : ∀ (b a : List String) (p : String),
    p ∈ unionStr a b ↔ p ∈ a ∨ p ∈ b
  | [], a, p => by simp [unionStr]
  | q :: rest, a, p => by
      have : unionStr a (q :: rest) = unionStr (insertStr a q) rest := rfl
      rw [this, mem_unionStr rest (insertStr a q) p, mem_insertStr]
      simp only [List.mem_cons]
      tauto

lemma alookup_eq_none {β : Type} {l : List (String × β)} {k : String} :
    alookup l k = none ↔ k ∉ keysOf l := by
  induction l with
  | nil => simp [alookup, keysOf]
  | cons kv rest ih =>
      by_cases h : kv.1 = k
      · simp [alookup, if_pos h, keysOf, h]
      · simp only [alookup, if_neg h, keysOf, List.map_cons, List.mem_cons, ih]
        constructor
        · rintro hk (rfl | hm)
          · exact h rfl
          · exact hk hm
        · intro hk hm
          exact hk (Or.inr hm)

lemma alookup_mem {β : Type} {l : List (String × β)} {k : String} {v : β} :
    alookup l k = some v → (k, v) ∈ l := by
  induction l with
  | nil => simp [alookup]
  | cons kv rest ih =>
      by_cases h : kv.1 = k
      · simp only [alookup, if_pos h]
        intro hv
        injection hv with hv
        have hkv : (k, v) = kv := by rw [← h, ← hv]
        rw [hkv]
        exact List.mem_cons_self _ _
      · simp only [alookup, if_neg h, List.mem_cons]
        intro hv
        exact Or.inr (ih hv)

lemma alookup_append_left {β : Type} {l t : List (String × β)} {k : String} {v : β} :
    alookup l k = some v → alookup (l ++ t) k = some v := by
  induction l with
  | nil => simp [alookup]
  | cons kv rest ih =>
      by_cases h : kv.1 = k
      · simp [alookup, if_pos h]
      · simp only [List.cons_append, alookup, if_neg h]
        exact ih

lemma alookup_append_right {β : Type} {l t : List (String × β)} {k : String} :
    k ∉ keysOf l → alookup (l ++ t) k = alookup t k := by
  induction l with
  | nil => simp
  | cons kv rest ih =>
      intro hk
      have h1 : kv.1 ≠ k := by
        intro h
        exact hk (by simp [keysOf, h])
      have h2 : k ∉ keysOf rest := by
        intro h
        exact hk (by simp [keysOf] at h ⊢; exact Or.inr h)
      simp only [List.cons_append, alookup, if_neg h1]
      exact ih h2

lemma mem_keysOf {β : Type} {l : List (String × β)} {k : String} :
    k ∈ keysOf l ↔ ∃ v, (k, v) ∈ l := by
  simp only [keysOf, List.mem_map]
  constructor
  · rintro ⟨⟨a, b⟩, hm, rfl⟩
    exact ⟨b, hm⟩
  · rintro ⟨v, hm⟩
    exact ⟨(k, v), hm, rfl⟩

lemma keysOf_append {β : Type} {l t : List (String × β)} :
    keysOf (l ++ t) = keysOf l ++ keysOf t := by
  simp [keysOf]

lemma process_entries_frame (g : Glob) (bd : ComponentBasedirDescriptor) :
    ∀ (entries : List (String × DirEntry)) (dest dest' : PatternMatcher)
      (c c' : ComponentContents) (s s' : ComponentScanner),
      ComponentScanner.process_entries g bd entries dest c s = (dest', c', s') →
      c'.component_descriptor = c.component_descriptor ∧
      c'.basedir_contents = c.basedir_contents ∧
      s'.components = s.components ∧
      s'.basedir_cache = s.basedir_cache ∧
      s'.walk_log = s.walk_log ∧
      s'.missing_basedirs = s.missing_basedirs := by
  intro entries
  induction entries with
  | nil =>
      intro dest dest' c c' s s' h
      simp only [ComponentScanner.process_entries, Prod.mk.injEq] at h
      obtain ⟨-, h2, h3⟩ := h
      rw [← h2, ← h3]
      exact ⟨rfl, rfl, rfl, rfl, rfl, rfl⟩
  | cons pe rest ih =>
      intro dest dest' c c' s s' h
      obtain ⟨p, e⟩ := pe
      by_cases h1 : p ∈ c.transitive_relpaths
      · simp only [ComponentScanner.process_entries, if_pos h1] at h
        have hr := ih _ _ _ _ _ _ h
        exact hr
      · by_cases h2 : p ∈ keysOf s.all_entries
        · by_cases h3 : bd.predicate.matches g p = true
          · simp only [ComponentScanner.process_entries, if_neg h1, if_pos h2, if_pos h3] at h
            have hr := ih _ _ _ _ _ _ h
            exact hr
          · simp only [ComponentScanner.process_entries, if_neg h1, if_pos h2, if_neg h3] at h
            have hr := ih _ _ _ _ _ _ h
            exact hr
        · by_cases h3 : bd.predicate.matches g p = true
          · simp only [ComponentScanner.process_entries, if_neg h1, if_neg h2, if_pos h3] at h
            have hr := ih _ _ _ _ _ _ h
            exact hr
          · simp only [ComponentScanner.process_entries, if_neg h1, if_neg h2, if_neg h3] at h
            have hr := ih _ _ _ _ _ _ h
            exact hr

lemma keysOf_snoc {β : Type} {l : List (String × β)} {p : String} {e : β} :
    keysOf (l ++ [(p, e)]) = keysOf l ++ [p] := by
  simp [keysOf]

lemma process_entries_mem (g : Glob) (bd : ComponentBasedirDescriptor) :
    ∀ (entries : List (String × DirEntry)) (dest dest' : PatternMatcher)
      (c c' : ComponentContents) (s s' : ComponentScanner),
      ComponentScanner.process_entries g bd entries dest c s = (dest', c', s') →
      (∀ p, p ∈ keysOf dest → p ∈ c.transitive_relpaths) →
      (∀ p, p ∈ keysOf dest → p ∈ s.matched_relpaths) →
      (∀ p, p ∈ c'.transitive_relpaths ↔ p ∈ c.transitive_relpaths ∨ p ∈ keysOf dest') ∧
      (∀ p, p ∈ s'.matched_relpaths ↔ p ∈ s.matched_relpaths ∨ p ∈ keysOf dest') ∧
      (∀ p, p ∈ keysOf dest' → p ∈ keysOf dest ∨ p ∉ c.transitive_relpaths) ∧
      (∀ p, p ∈ keysOf dest → p ∈ keysOf dest') ∧
      (∀ p, p ∈ keysOf s.all_entries → p ∈ keysOf s'.all_entries) := by
  intro entries
  induction entries with
  | nil =>
      intro dest dest' c c' s s' h hd hm
      simp only [ComponentScanner.process_entries, Prod.mk.injEq] at h
      obtain ⟨h1, h2, h3⟩ := h
      subst h1 h2 h3
      refine ⟨fun p => ?_, fun p => ?_, fun p hp => Or.inl hp, fun p hp => hp, fun p hp => hp⟩
      · exact ⟨fun hp => Or.inl hp, fun hp => hp.elim id (hd p)⟩
      · exact ⟨fun hp => Or.inl hp, fun hp => hp.elim id (hm p)⟩
  | cons pe rest ih =>
      intro dest dest' c c' s s' h hd hm
      obtain ⟨p, e⟩ := pe
      by_cases h1 : p ∈ c.transitive_relpaths
      · simp only [ComponentScanner.process_entries, if_pos h1] at h
        exact ih _ _ _ _ _ _ h hd hm
      · -- the entry is unclaimed so far
        by_cases h2 : p ∈ keysOf s.all_entries
        all_goals by_cases h3 : bd.predicate.matches g p = true
        -- four cases; in each, reduce h to the recursive call and apply ih
        · -- pos.pos
          simp only [ComponentScanner.process_entries, if_neg h1, if_pos h2, if_pos h3] at h
          have hr := ih _ _ _ _ _ _ h
            (by
              intro q hq
              rw [keysOf_snoc] at hq
              rcases List.mem_append.mp hq with hq | hq
              · exact List.mem_append_left _ (hd q hq)
              · simp only [List.mem_singleton] at hq
                subst hq
                exact List.mem_append_right _ (List.mem_singleton.mpr rfl))
            (by
              intro q hq
              rw [keysOf_snoc] at hq
              rcases List.mem_append.mp hq with hq | hq
              · exact mem_insertStr.mpr (Or.inl (hm q hq))
              · simp only [List.mem_singleton] at hq
                subst hq
                exact mem_insertStr.mpr (Or.inr rfl))
          obtain ⟨ht, hmt, hnew, hmono, hobs⟩ := hr
          have hpdest : p ∈ keysOf dest' := by
            apply hmono
            rw [keysOf_snoc]
            exact List.mem_append_right _ (List.mem_singleton.mpr rfl)
          refine ⟨fun q => ?_, fun q => ?_, fun q hq => ?_, fun q hq => ?_, fun q hq => ?_⟩
          · rw [ht q]
            simp only [List.mem_append, List.mem_singleton]
            constructor
            · rintro ((hq | rfl) | hq)
              · exact Or.inl hq
              · exact Or.inr hpdest
              · exact Or.inr hq
            · rintro (hq | hq)
              · exact Or.inl (Or.inl hq)
              · exact Or.inr hq
          · rw [hmt q, mem_insertStr]
            constructor
            · rintro ((hq | rfl) | hq)
              · exact Or.inl hq
              · exact Or.inr hpdest
              · exact Or.inr hq
            · rintro (hq | hq)
              · exact Or.inl (Or.inl hq)
              · exact Or.inr hq
          · rcases hnew q hq with hq' | hq'
            · rw [keysOf_snoc] at hq'
              rcases List.mem_append.mp hq' with hq'' | hq''
              · exact Or.inl hq''
              · simp only [List.mem_singleton] at hq''
                subst hq''
                exact Or.inr h1
            · refine Or.inr fun hq'' => hq' ?_
              exact List.mem_append_left _ hq''
          · apply hmono
            rw [keysOf_snoc]
            exact List.mem_append_left _ hq
          · exact hobs q hq
        · -- pos.neg
          simp only [ComponentScanner.process_entries, if_neg h1, if_pos h2, if_neg h3] at h
          exact ih _ _ _ _ _ _ h hd hm
        · -- neg.pos
          simp only [ComponentScanner.process_entries, if_neg h1, if_neg h2, if_pos h3] at h
          have hr := ih _ _ _ _ _ _ h
            (by
              intro q hq
              rw [keysOf_snoc] at hq
              rcases List.mem_append.mp hq with hq | hq
              · exact List.mem_append_left _ (hd q hq)
              · simp only [List.mem_singleton] at hq
                subst hq
                exact List.mem_append_right _ (List.mem_singleton.mpr rfl))
            (by
              intro q hq
              rw [keysOf_snoc] at hq
              rcases List.mem_append.mp hq with hq | hq
              · exact mem_insertStr.mpr (Or.inl (hm q hq))
              · simp only [List.mem_singleton] at hq
                subst hq
                exact mem_insertStr.mpr (Or.inr rfl))
          obtain ⟨ht, hmt, hnew, hmono, hobs⟩ := hr
          have hpdest : p ∈ keysOf dest' := by
            apply hmono
            rw [keysOf_snoc]
            exact List.mem_append_right _ (List.mem_singleton.mpr rfl)
          refine ⟨fun q => ?_, fun q => ?_, fun q hq => ?_, fun q hq => ?_, fun q hq => ?_⟩
          · rw [ht q]
            simp only [List.mem_append, List.mem_singleton]
            constructor
            · rintro ((hq | rfl) | hq)
              · exact Or.inl hq
              · exact Or.inr hpdest
              · exact Or.inr hq
            · rintro (hq | hq)
              · exact Or.inl (Or.inl hq)
              · exact Or.inr hq
          · rw [hmt q, mem_insertStr]
            constructor
            · rintro ((hq | rfl) | hq)
              · exact Or.inl hq
              · exact Or.inr hpdest
              · exact Or.inr hq
            · rintro (hq | hq)
              · exact Or.inl (Or.inl hq)
              · exact Or.inr hq
          · rcases hnew q hq with hq' | hq'
            · rw [keysOf_snoc] at hq'
              rcases List.mem_append.mp hq' with hq'' | hq''
              · exact Or.inl hq''
              · simp only [List.mem_singleton] at hq''
                subst hq''
                exact Or.inr h1
            · refine Or.inr fun hq'' => hq' ?_
              exact List.mem_append_left _ hq''
          · apply hmono
            rw [keysOf_snoc]
            exact List.mem_append_left _ hq
          · apply hobs
            rw [keysOf_snoc]
            exact List.mem_append_left _ hq
        · -- neg.neg
          simp only [ComponentScanner.process_entries, if_neg h1, if_neg h2, if_neg h3] at h
          have hr := ih _ _ _ _ _ _ h hd hm
          obtain ⟨ht, hmt, hnew, hmono, hobs⟩ := hr
          refine ⟨ht, hmt, hnew, hmono, fun q hq => ?_⟩
          apply hobs
          rw [keysOf_snoc]
          exact List.mem_append_left _ hq

lemma process_entries_obs_mono (g : Glob) (bd : ComponentBasedirDescriptor) :
    ∀ (entries : List (String × DirEntry)) (dest dest' : PatternMatcher)
      (c c' : ComponentContents) (s s' : ComponentScanner),
      ComponentScanner.process_entries g bd entries dest c s = (dest', c', s') →
      ∀ p, p ∈ keysOf s.all_entries → p ∈ keysOf s'.all_entries := by
  intro entries
  induction entries with
  | nil =>
      intro dest dest' c c' s s' h p hp
      simp only [ComponentScanner.process_entries, Prod.mk.injEq] at h
      rw [← h.2.2]
      exact hp
  | cons pe rest ih =>
      intro dest dest' c c' s s' h p hp
      obtain ⟨q, e⟩ := pe
      by_cases h1 : q ∈ c.transitive_relpaths
      · simp only [ComponentScanner.process_entries, if_pos h1] at h
        exact ih _ _ _ _ _ _ h p hp
      · by_cases h2 : q ∈ keysOf s.all_entries
        all_goals by_cases h3 : bd.predicate.matches g q = true
        · -- pos.pos
          simp only [ComponentScanner.process_entries, if_neg h1, if_pos h2, if_pos h3] at h
          exact ih _ _ _ _ _ _ h p hp
        · -- pos.neg
          simp only [ComponentScanner.process_entries, if_neg h1, if_pos h2, if_neg h3] at h
          exact ih _ _ _ _ _ _ h p hp
        · -- neg.pos
          simp only [ComponentScanner.process_entries, if_neg h1, if_neg h2, if_pos h3] at h
          refine ih _ _ _ _ _ _ h p ?_
          rw [keysOf_snoc]
          exact List.mem_append_left _ hp
        · -- neg.neg
          simp only [ComponentScanner.process_entries, if_neg h1, if_neg h2, if_neg h3] at h
          refine ih _ _ _ _ _ _ h p ?_
          rw [keysOf_snoc]
          exact List.mem_append_left _ hp

lemma process_entries_dest_observed (g : Glob) (bd : ComponentBasedirDescriptor) :
    ∀ (entries : List (String × DirEntry)) (dest dest' : PatternMatcher)
      (c c' : ComponentContents) (s s' : ComponentScanner),
      ComponentScanner.process_entries g bd entries dest c s = (dest', c', s') →
      ∀ p, p ∈ keysOf dest' → p ∈ keysOf dest ∨ p ∈ keysOf s'.all_entries := by
  intro entries
  induction entries with
  | nil =>
      intro dest dest' c c' s s' h p hp
      simp only [ComponentScanner.process_entries, Prod.mk.injEq] at h
      rw [← h.1] at hp
      exact Or.inl hp
  | cons pe rest ih =>
      intro dest dest' c c' s s' h p hp
      obtain ⟨q, e⟩ := pe
      by_cases h1 : q ∈ c.transitive_relpaths
      · simp only [ComponentScanner.process_entries, if_pos h1] at h
        exact ih _ _ _ _ _ _ h p hp
      · by_cases h2 : q ∈ keysOf s.all_entries
        all_goals by_cases h3 : bd.predicate.matches g q = true
        · -- pos.pos: q is recorded (already observed) and matched
          simp only [ComponentScanner.process_entries, if_neg h1, if_pos h2, if_pos h3] at h
          rcases ih _ _ _ _ _ _ h p hp with hq | hq
          · rw [keysOf_snoc] at hq
            rcases List.mem_append.mp hq with hq' | hq'
            · exact Or.inl hq'
            · simp only [List.mem_singleton] at hq'
              subst hq'
              exact Or.inr (process_entries_obs_mono g bd _ _ _ _ _ _ _ h p h2)
          · exact Or.inr hq
        · -- pos.neg
          simp only [ComponentScanner.process_entries, if_neg h1, if_pos h2, if_neg h3] at h
          exact ih _ _ _ _ _ _ h p hp
        · -- neg.pos: q is freshly recorded into all_entries and matched
          simp only [ComponentScanner.process_entries, if_neg h1, if_neg h2, if_pos h3] at h
          rcases ih _ _ _ _ _ _ h p hp with hq | hq
          · rw [keysOf_snoc] at hq
            rcases List.mem_append.mp hq with hq' | hq'
            · exact Or.inl hq'
            · simp only [List.mem_singleton] at hq'
              subst hq'
              refine Or.inr (process_entries_obs_mono g bd _ _ _ _ _ _ _ h p ?_)
              rw [keysOf_snoc]
              exact List.mem_append_right _ (List.mem_singleton.mpr rfl)
          · exact Or.inr hq
        · -- neg.neg
          simp only [ComponentScanner.process_entries, if_neg h1, if_neg h2, if_neg h3] at h
          exact ih _ _ _ _ _ _ h p hp

lemma get_basedir_spec (fs : FS) (s : ComponentScanner) (basedir : String) :
    (ComponentScanner.get_basedir fs s basedir).2.components = s.components ∧
    (ComponentScanner.get_basedir fs s basedir).2.all_entries = s.all_entries ∧
    (ComponentScanner.get_basedir fs s basedir).2.matched_relpaths = s.matched_relpaths ∧
    (s.walk_log = keysOf s.basedir_cache →
      (ComponentScanner.get_basedir fs s basedir).2.walk_log
        = keysOf (ComponentScanner.get_basedir fs s basedir).2.basedir_cache) ∧
    (s.walk_log = keysOf s.basedir_cache → s.walk_log.Nodup →
      (ComponentScanner.get_basedir fs s basedir).2.walk_log.Nodup) ∧
    ((∀ bd pm, alookup s.basedir_cache bd = some pm → fs bd = some pm) →
      ∀ bd pm, alookup (ComponentScanner.get_basedir fs s basedir).2.basedir_cache bd = some pm →
        fs bd = some pm) := by
  cases hc : alookup s.basedir_cache basedir with
  | some pm =>
      simp only [ComponentScanner.get_basedir, hc]
      exact ⟨by trivial, by trivial, by trivial, fun h => h, fun h hn => hn, fun h => h⟩
  | none =>
      cases hfs : fs basedir with
      | some entries =>
          simp only [ComponentScanner.get_basedir, hc, hfs]
          refine ⟨by trivial, by trivial, by trivial, fun h => ?_, fun h hn => ?_, fun h => ?_⟩
          · rw [keysOf_append, ← h]
            simp [keysOf]
          · have hnot : basedir ∉ s.walk_log := by
              rw [h]
              exact alookup_eq_none.mp hc
            simp [List.nodup_append, hn, hnot]
          · intro bd pm hb
            cases hcb : alookup s.basedir_cache bd with
            | some v =>
                rw [alookup_append_left hcb] at hb
                injection hb with hb
                subst hb
                exact h bd _ hcb
            | none =>
                rw [alookup_append_right (alookup_eq_none.mp hcb)] at hb
                by_cases heq : basedir = bd
                · subst heq
                  simp only [alookup, if_pos rfl] at hb
                  injection hb with hb
                  subst hb
                  exact hfs
                · simp only [alookup, if_neg heq] at hb
                  cases hb
      | none =>
          simp only [ComponentScanner.get_basedir, hc, hfs]
          exact ⟨by trivial, by trivial, by trivial, fun h => h, fun h hn => hn, fun h => h⟩

lemma get_basedir_eq_spec (fs : FS) (s : ComponentScanner) (basedir : String)
    (pm : PatternMatcher) (s2 : ComponentScanner)
    (h : ComponentScanner.get_basedir fs s basedir = (pm, s2)) :
    s2.components = s.components ∧
    s2.all_entries = s.all_entries ∧
    s2.matched_relpaths = s.matched_relpaths ∧
    (s.walk_log = keysOf s.basedir_cache → s2.walk_log = keysOf s2.basedir_cache) ∧
    (s.walk_log = keysOf s.basedir_cache → s.walk_log.Nodup → s2.walk_log.Nodup) ∧
    ((∀ bd pm', alookup s.basedir_cache bd = some pm' → fs bd = some pm') →
      ∀ bd pm', alookup s2.basedir_cache bd = some pm' → fs bd = some pm') := by
  have hs := get_basedir_spec fs s basedir
  rw [h] at hs
  exact hs

lemma ownMem_snoc {c2 c : ComponentContents} {bdn : String} {dest : PatternMatcher}
    (h : c2.basedir_contents = c.basedir_contents ++ [(bdn, dest)]) (p : String) :
    ownMem c2 p ↔ ownMem c p ∨ p ∈ keysOf dest := by
  simp only [ownMem, h, List.mem_append, List.mem_singleton]
  constructor
  · rintro ⟨bd2, d2, (hm | hm), hp⟩
    · exact Or.inl ⟨bd2, d2, hm, hp⟩
    · rw [Prod.mk.injEq] at hm
      obtain ⟨rfl, rfl⟩ := hm
      exact Or.inr hp
  · rintro (⟨bd2, d2, hm, hp⟩ | hp)
    · exact ⟨bd2, d2, Or.inl hm, hp⟩
    · exact ⟨bdn, dest, Or.inr rfl, hp⟩

lemma ownMem_congr {c d : ComponentContents} (h : c.basedir_contents = d.basedir_contents)
    (p : String) : ownMem c p ↔ ownMem d p := by
  simp [ownMem, h]

lemma process_basedirs_spec (g : Glob) (fs : FS) :
    ∀ (bds : List ComponentBasedirDescriptor) (c c' : ComponentContents)
      (s s' : ComponentScanner),
      ComponentScanner.process_basedirs g fs bds c s = (c', s') →
      (∀ p, ownMem c p → p ∈ c.transitive_relpaths) →
      (∀ p, ownMem c p → p ∈ s.matched_relpaths) →
      c'.component_descriptor = c.component_descriptor ∧
      s'.components = s.components ∧
      (∀ bdp, bdp ∈ c.basedir_contents → bdp ∈ c'.basedir_contents) ∧
      (∀ p, p ∈ c'.transitive_relpaths ↔ p ∈ c.transitive_relpaths ∨ ownMem c' p) ∧
      (∀ p, p ∈ s'.matched_relpaths ↔ p ∈ s.matched_relpaths ∨ ownMem c' p) ∧
      (∀ p, ownMem c' p → ownMem c p ∨ p ∉ c.transitive_relpaths) ∧
      (∀ p, p ∈ keysOf s.all_entries → p ∈ keysOf s'.all_entries) ∧
      ((∀ p, p ∈ s.matched_relpaths → p ∈ keysOf s.all_entries) →
        ∀ p, p ∈ s'.matched_relpaths → p ∈ keysOf s'.all_entries) ∧
      (s.walk_log = keysOf s.basedir_cache → s'.walk_log = keysOf s'.basedir_cache) ∧
      (s.walk_log = keysOf s.basedir_cache → s.walk_log.Nodup → s'.walk_log.Nodup) ∧
      ((∀ bd pm, alookup s.basedir_cache bd = some pm → fs bd = some pm) →
        ∀ bd pm, alookup s'.basedir_cache bd = some pm → fs bd = some pm) := by
  intro bds
  induction bds with
  | nil =>
      intro c c' s s' h hoc hom
      simp only [ComponentScanner.process_basedirs, Prod.mk.injEq] at h
      obtain ⟨h1, h2⟩ := h
      subst h1 h2
      refine ⟨rfl, rfl, fun bdp hb => hb, fun p => ?_, fun p => ?_,
        fun p hp => Or.inl hp, fun p hp => hp, fun hobs => hobs,
        fun hw => hw, fun hw hn => hn, fun hc => hc⟩
      · exact ⟨fun hp => Or.inl hp, fun hp => hp.elim id (hoc p)⟩
      · exact ⟨fun hp => Or.inl hp, fun hp => hp.elim id (hom p)⟩
  | cons bd rest ih =>
      intro c c' s s' h hoc hom
      rcases hGB : ComponentScanner.get_basedir fs s bd.basedir_relpath with ⟨pm, sA⟩
      rcases hPE : ComponentScanner.process_entries g bd pm [] c sA with ⟨dest1, cB, sB⟩
      simp only [ComponentScanner.process_basedirs, hGB, hPE] at h
      obtain ⟨hgA, hgB, hgC, hgD, hgE, hgF⟩ := get_basedir_eq_spec fs s _ pm sA hGB
      obtain ⟨hf1, hf2, hf3, hf4, hf5, hf6⟩ :=
        process_entries_frame g bd pm [] dest1 c cB sA sB hPE
      obtain ⟨ht, hmt, hnew, -, hobsm⟩ :=
        process_entries_mem g bd pm [] dest1 c cB sA sB hPE
          (by intro p hp; cases hp) (by intro p hp; cases hp)
      have hdobs := process_entries_dest_observed g bd pm [] dest1 c cB sA sB hPE
      -- the component state handed to the remaining basedirs
      have hc2bc :
          ({ cB with basedir_contents :=
              cB.basedir_contents ++ [(bd.basedir_relpath, dest1)] } :
            ComponentContents).basedir_contents
            = c.basedir_contents ++ [(bd.basedir_relpath, dest1)] := by
        simp [hf2]
      have hown2 := ownMem_snoc hc2bc
      -- invariant hypotheses for the recursive call
      have hoc2 : ∀ p, ownMem { cB with basedir_contents :=
          cB.basedir_contents ++ [(bd.basedir_relpath, dest1)] } p →
          p ∈ ({ cB with basedir_contents :=
            cB.basedir_contents ++ [(bd.basedir_relpath, dest1)] } :
              ComponentContents).transitive_relpaths := by
        intro p hp
        rcases (hown2 p).mp hp with hp | hp
        · exact (ht p).mpr (Or.inl (hoc p hp))
        · exact (ht p).mpr (Or.inr hp)
      have hom2 : ∀ p, ownMem { cB with basedir_contents :=
          cB.basedir_contents ++ [(bd.basedir_relpath, dest1)] } p →
          p ∈ sB.matched_relpaths := by
        intro p hp
        rcases (hown2 p).mp hp with hp | hp
        · exact (hmt p).mpr (Or.inl (hgC ▸ hom p hp))
        · exact (hmt p).mpr (Or.inr hp)
      obtain ⟨ihcd, ihcomp, ihbc, ihtrans, ihmatch, ihnew, ihobs, ihmobs, ihwe, ihwn, ihcf⟩ :=
        ih _ c' sB s' h hoc2 hom2
      have hbd_mem : (bd.basedir_relpath, dest1) ∈ c'.basedir_contents := by
        apply ihbc
        rw [hc2bc]
        exact List.mem_append_right _ (List.mem_singleton.mpr rfl)
      have hdest_own : ∀ p, p ∈ keysOf dest1 → ownMem c' p := by
        intro p hp
        exact ⟨bd.basedir_relpath, dest1, hbd_mem, hp⟩
      refine ⟨?_, ?_, ?_, ?_, ?_, ?_, ?_, ?_, ?_, ?_, ?_⟩
      · rw [ihcd]
        exact hf1
      · rw [ihcomp, hf3, hgA]
      · intro bdp hb
        apply ihbc
        rw [hc2bc]
        exact List.mem_append_left _ (hf2 ▸ hb)
      · intro p
        rw [ihtrans p]
        constructor
        · rintro (hp | hp)
          · rcases (ht p).mp hp with hp' | hp'
            · exact Or.inl hp'
            · exact Or.inr (hdest_own p hp')
          · exact Or.inr hp
        · rintro (hp | hp)
          · exact Or.inl ((ht p).mpr (Or.inl hp))
          · exact Or.inr hp
      · intro p
        rw [ihmatch p]
        constructor
        · rintro (hp | hp)
          · rcases (hmt p).mp hp with hp' | hp'
            · exact Or.inl (hgC ▸ hp')
            · exact Or.inr (hdest_own p hp')
          · exact Or.inr hp
        · rintro (hp | hp)
          · exact Or.inl ((hmt p).mpr (Or.inl (hgC ▸ hp)))
          · exact Or.inr hp
      · intro p hp
        rcases ihnew p hp with hp' | hp'
        · rcases (hown2 p).mp hp' with hp'' | hp''
          · exact Or.inl hp''
          · rcases hnew p hp'' with hp3 | hp3
            · cases hp3
            · exact Or.inr hp3
        · refine Or.inr fun hp'' => hp' ?_
          exact (ht p).mpr (Or.inl hp'')
      · intro p hp
        refine ihobs p (hobsm p ?_)
        rw [hgB]
        exact hp
      · intro hmo p hp
        refine ihmobs ?_ p hp
        intro q hq
        rcases (hmt q).mp hq with hq' | hq'
        · refine hobsm q ?_
          rw [hgB]
          exact hmo q (hgC ▸ hq')
        · rcases hdobs q hq' with hq'' | hq''
          · cases hq''
          · exact hq''
      · intro hwe
        refine ihwe ?_
        rw [hf5, hf4]
        exact hgD hwe
      · intro hwe hwn
        refine ihwn ?_ ?_
        · rw [hf5, hf4]
          exact hgD hwe
        · rw [hf5]
          exact hgE hwe hwn
      · intro hcf
        refine ihcf ?_
        intro bdn pmn hb
        rw [hf4] at hb
        exact hgF hcf bdn pmn hb

lemma mem_foldl_union : ∀ (ext : List ComponentContents) (acc : List String) (p : String),
    p ∈ ext.foldl (fun acc ec => unionStr acc ec.transitive_relpaths) acc ↔
      p ∈ acc ∨ ∃ ec ∈ ext, p ∈ ec.transitive_relpaths
  | [], acc, p => by simp
  | ec :: rest, acc, p => by
      simp only [List.foldl_cons, mem_foldl_union rest, mem_unionStr, List.mem_cons]
      constructor
      · rintro ((hp | hp) | ⟨ec', hm, hp⟩)
        · exact Or.inl hp
        · exact Or.inr ⟨ec, Or.inl rfl, hp⟩
        · exact Or.inr ⟨ec', Or.inr hm, hp⟩
      · rintro (hp | ⟨ec', (rfl | hm), hp⟩)
        · exact Or.inl (Or.inl hp)
        · exact Or.inl (Or.inr hp)
        · exact Or.inr ⟨ec', hm, hp⟩

lemma resolve_extends_spec (s : ComponentScanner) :
    ∀ (ext : List String) (l : List ComponentContents),
      ComponentScanner.resolve_extends s ext = some l →
      (∀ cm, cm ∈ l → ∃ m, m ∈ ext ∧ alookup s.components m = some cm) ∧
      (∀ m, m ∈ ext → ∃ cm, cm ∈ l ∧ alookup s.components m = some cm)
  | [], l => by
      intro h
      simp only [ComponentScanner.resolve_extends, Option.some.injEq] at h
      subst h
      exact ⟨fun cm hcm => absurd hcm (List.not_mem_nil cm), fun m hm => absurd hm (List.not_mem_nil m)⟩
  | n :: rest, l => by
      intro h
      cases halo : alookup s.components n with
      | none => simp [ComponentScanner.resolve_extends, halo] at h
      | some cn =>
          cases hre : ComponentScanner.resolve_extends s rest with
          | none => simp [ComponentScanner.resolve_extends, halo, hre] at h
          | some lr =>
              simp only [ComponentScanner.resolve_extends, halo, hre, Option.some.injEq] at h
              subst h
              obtain ⟨ih1, ih2⟩ := resolve_extends_spec s rest lr hre
              constructor
              · intro cm hcm
                rcases List.mem_cons.mp hcm with rfl | hcm
                · exact ⟨n, List.mem_cons_self _ _, halo⟩
                · obtain ⟨m, hm, hv⟩ := ih1 cm hcm
                  exact ⟨m, List.mem_cons_of_mem _ hm, hv⟩
              · intro m hm
                rcases List.mem_cons.mp hm with rfl | hm
                · exact ⟨cn, List.mem_cons_self _ _, halo⟩
                · obtain ⟨cm, hcm, hv⟩ := ih2 m hm
                  exact ⟨cm, List.mem_cons_of_mem _ hcm, hv⟩

lemma populate_spec (g : Glob) (fs : FS) (s s' : ComponentScanner) (cd : ComponentDescriptor)
    (ext : List ComponentContents)
    (h : ComponentScanner.populate_component g fs s cd ext = s') :
    ∃ cNew : ComponentContents,
      s'.components = s.components ++ [(cd.name, cNew)] ∧
      cNew.component_descriptor = cd ∧
      (∀ p, p ∈ cNew.transitive_relpaths ↔
        (∃ ec ∈ ext, p ∈ ec.transitive_relpaths) ∨ ownMem cNew p) ∧
      (∀ p, ownMem cNew p → ∀ ec ∈ ext, p ∉ ec.transitive_relpaths) ∧
      (∀ p, p ∈ s'.matched_relpaths ↔ p ∈ s.matched_relpaths ∨ ownMem cNew p) ∧
      (∀ p, p ∈ keysOf s.all_entries → p ∈ keysOf s'.all_entries) ∧
      ((∀ p, p ∈ s.matched_relpaths → p ∈ keysOf s.all_entries) →
        ∀ p, p ∈ s'.matched_relpaths → p ∈ keysOf s'.all_entries) ∧
      (s.walk_log = keysOf s.basedir_cache → s'.walk_log = keysOf s'.basedir_cache) ∧
      (s.walk_log = keysOf s.basedir_cache → s.walk_log.Nodup → s'.walk_log.Nodup) ∧
      ((∀ bd pm, alookup s.basedir_cache bd = some pm → fs bd = some pm) →
        ∀ bd pm, alookup s'.basedir_cache bd = some pm → fs bd = some pm) := by
  rcases hPB : ComponentScanner.process_basedirs g fs (cd.basedirs.map Prod.snd)
      { component_descriptor := cd
        transitive_relpaths :=
          ext.foldl (fun acc ec => unionStr acc ec.transitive_relpaths) []
        basedir_contents := [] } s with ⟨cN, sN⟩
  simp only [ComponentScanner.populate_component, hPB] at h
  subst h
  obtain ⟨hcd, hcomp, -, htrans, hmatch, hnew, hobs, hmobs, hwe, hwn, hcf⟩ :=
    process_basedirs_spec g fs _ _ cN s sN hPB
      (by
        rintro p ⟨bdn, dest, hm, -⟩
        cases hm)
      (by
        rintro p ⟨bdn, dest, hm, -⟩
        cases hm)
  refine ⟨cN, by simp [hcomp], hcd, fun p => ?_, fun p hp ec hec hpe => ?_,
    fun p => ?_, hobs, hmobs, hwe, hwn, hcf⟩
  · rw [htrans p]
    simp only [mem_foldl_union, List.not_mem_nil, false_or]
  · rcases hnew p hp with hp' | hp'
    · obtain ⟨bdn, dest, hm, -⟩ := hp'
      cases hm
    · exact hp' ((mem_foldl_union ext [] p).mpr (Or.inr ⟨ec, hec, hpe⟩))
  · exact hmatch p

/-- The inductive invariant maintained by classification: bookkeeping
facts about the scanner state, plus the per-component facts about every
finished component (its extends all resolve to finished components whose
claimed sets it inherited and whose claims its own results avoid; its
transitive set is exactly inherited claims plus own matches; its own
matches are globally recorded). -/
structure ScannerInv (fs : FS) (s : ComponentScanner) : Prop where
  matched_observed : ∀ p, p ∈ s.matched_relpaths → p ∈ keysOf s.all_entries
  walk_eq : s.walk_log = keysOf s.basedir_cache
  walk_nodup : s.walk_log.Nodup
  cache_fs : ∀ bd pm, alookup s.basedir_cache bd = some pm → fs bd = some pm
  matched_own : ∀ p, p ∈ s.matched_relpaths → ∃ nc, nc ∈ s.components ∧ ownMem nc.2 p
  comp_inv : ∀ nc, nc ∈ s.components →
    (∀ m, m ∈ nc.2.component_descriptor.extends_list →
      ∃ cm, alookup s.components m = some cm ∧
        (∀ p, ownMem nc.2 p → p ∉ cm.transitive_relpaths)) ∧
    (∀ p, p ∈ nc.2.transitive_relpaths ↔
      (∃ m, m ∈ nc.2.component_descriptor.extends_list ∧
        ∃ cm, alookup s.components m = some cm ∧ p ∈ cm.transitive_relpaths) ∨
      ownMem nc.2 p) ∧
    (∀ p, ownMem nc.2 p → p ∈ s.matched_relpaths)

lemma ScannerInv.init (fs : FS) : ScannerInv fs ComponentScanner.init := by
  refine ⟨?_, ?_, ?_, ?_, ?_, ?_⟩
  · intro p hp
    cases hp
  · rfl
  · exact List.nodup_nil
  · intro bd pm h
    cases h
  · intro p hp
    cases hp
  · intro nc hnc
    cases hnc

lemma populate_inv (g : Glob) (fs : FS) (s s' : ComponentScanner) (cd : ComponentDescriptor)
    (ext : List ComponentContents)
    (hres : ComponentScanner.resolve_extends s cd.extends_list = some ext)
    (h : ComponentScanner.populate_component g fs s cd ext = s')
    (hinv : ScannerInv fs s) : ScannerInv fs s' := by
  obtain ⟨cNew, hcomp, hcd, htrans, hdisj, hmatch, hobs, hmobs, hwe, hwn, hcf⟩ :=
    populate_spec g fs s s' cd ext h
  obtain ⟨hr1, hr2⟩ := resolve_extends_spec s cd.extends_list ext hres
  have halo_pres : ∀ m cm, alookup s.components m = some cm →
      alookup s'.components m = some cm := by
    intro m cm hm
    rw [hcomp]
    exact alookup_append_left hm
  have halo_back : ∀ m cm cm0, alookup s.components m = some cm0 →
      alookup s'.components m = some cm → cm = cm0 := by
    intro m cm cm0 h0 h1
    have h2 := halo_pres m cm0 h0
    rw [h1] at h2
    injection h2
  refine ⟨hmobs hinv.matched_observed, hwe hinv.walk_eq, hwn hinv.walk_eq hinv.walk_nodup,
    hcf hinv.cache_fs, ?_, ?_⟩
  · intro p hp
    rcases (hmatch p).mp hp with hp | hp
    · obtain ⟨nc, hnc, hown⟩ := hinv.matched_own p hp
      refine ⟨nc, ?_, hown⟩
      rw [hcomp]
      exact List.mem_append_left _ hnc
    · refine ⟨(cd.name, cNew), ?_, hp⟩
      rw [hcomp]
      exact List.mem_append_right _ (List.mem_singleton.mpr rfl)
  · intro nc hnc
    rw [hcomp] at hnc
    rcases List.mem_append.mp hnc with hnc | hnc
    · obtain ⟨o1, o2, o3⟩ := hinv.comp_inv nc hnc
      refine ⟨?_, ?_, ?_⟩
      · intro m hm
        obtain ⟨cm, hcm, hd⟩ := o1 m hm
        exact ⟨cm, halo_pres _ _ hcm, hd⟩
      · intro p
        rw [o2 p]
        constructor
        · rintro (⟨m, hm, cm, hcm, hp⟩ | hp)
          · exact Or.inl ⟨m, hm, cm, halo_pres _ _ hcm, hp⟩
          · exact Or.inr hp
        · rintro (⟨m, hm, cm, hcm', hp⟩ | hp)
          · obtain ⟨cm0, hcm0, -⟩ := o1 m hm
            have heq := halo_back m cm cm0 hcm0 hcm'
            subst heq
            exact Or.inl ⟨m, hm, cm, hcm0, hp⟩
          · exact Or.inr hp
      · intro p hp
        exact (hmatch p).mpr (Or.inl (o3 p hp))
    · rw [List.mem_singleton] at hnc
      subst hnc
      refine ⟨?_, ?_, ?_⟩
      · intro m hm
        rw [hcd] at hm
        obtain ⟨cm, hcm, hv⟩ := hr2 m hm
        exact ⟨cm, halo_pres _ _ hv, fun p hp => hdisj p hp cm hcm⟩
      · intro p
        rw [htrans p]
        constructor
        · rintro (⟨ec, hec, hp⟩ | hp)
          · obtain ⟨m, hm, hv⟩ := hr1 ec hec
            refine Or.inl ⟨m, ?_, ec, halo_pres _ _ hv, hp⟩
            rw [hcd]
            exact hm
          · exact Or.inr hp
        · rintro (⟨m, hm, cm, hcm', hp⟩ | hp)
          · rw [hcd] at hm
            obtain ⟨cm0, hcm0mem, hv0⟩ := hr2 m hm
            have heq := halo_back m cm cm0 hv0 hcm'
            subst heq
            exact Or.inl ⟨cm, hcm0mem, hp⟩
          · exact Or.inr hp
      · intro p hp
        exact (hmatch p).mpr (Or.inr hp)

lemma scan_pass_inv (g : Glob) (fs : FS) :
    ∀ (W : List ComponentDescriptor) (s : ComponentScanner) (next : List ComponentDescriptor)
      (s' : ComponentScanner) (next' : List ComponentDescriptor),
      ComponentScanner.scan_pass g fs W s next = (s', next') →
      ScannerInv fs s → ScannerInv fs s' := by
  intro W
  induction W with
  | nil =>
      intro s next s' next' h hinv
      simp only [ComponentScanner.scan_pass, Prod.mk.injEq] at h
      rw [← h.1]
      exact hinv
  | cons cd rest ih =>
      intro s next s' next' h hinv
      cases hres : ComponentScanner.resolve_extends s cd.extends_list with
      | some ext =>
          simp only [ComponentScanner.scan_pass, hres] at h
          exact ih _ _ _ _ h (populate_inv g fs s _ cd ext hres rfl hinv)
      | none =>
          simp only [ComponentScanner.scan_pass, hres] at h
          exact ih _ _ _ _ h hinv

lemma scan_loop_inv (g : Glob) (fs : FS) :
    ∀ (fuel : Nat) (s : ComponentScanner) (W : List ComponentDescriptor)
      (s' : ComponentScanner),
      ComponentScanner.scan_loop g fs fuel s W = .ok s' →
      ScannerInv fs s → ScannerInv fs s' := by
  intro fuel
  induction fuel with
  | zero =>
      intro s W s' h hinv
      cases W with
      | nil =>
          simp only [ComponentScanner.scan_loop, Except.ok.injEq] at h
          rw [← h]
          exact hinv
      | cons cd rest => simp [ComponentScanner.scan_loop] at h
  | succ fuel ih =>
      intro s W s' h hinv
      cases W with
      | nil =>
          simp only [ComponentScanner.scan_loop, Except.ok.injEq] at h
          rw [← h]
          exact hinv
      | cons cd rest =>
          rcases hp : ComponentScanner.scan_pass g fs (cd :: rest) s [] with ⟨s1, next⟩
          simp only [ComponentScanner.scan_loop, hp] at h
          split at h
          · exact ih s1 next s' h (scan_pass_inv g fs _ _ _ _ _ hp hinv)
          · cases h

lemma run_inv (g : Glob) (fs : FS) (ad : ArtifactDescriptor) (s' : ComponentScanner)
    (h : ComponentScanner.run g fs ad = .ok s') : ScannerInv fs s' :=
  scan_loop_inv g fs _ _ _ _ h (ScannerInv.init fs)

lemma alookup_mem_keys {β : Type} {l : List (String × β)} {k : String} {v : β}
    (h : alookup l k = some v) : k ∈ keysOf l :=
  mem_keysOf.mpr ⟨v, alookup_mem h⟩

lemma inv_extends_facts {fs : FS} {s : ComponentScanner} (hinv : ScannerInv fs s) :
    ∀ b a, ExtendsTrans s.components b a →
      ∀ cb ca, alookup s.components b = some cb → alookup s.components a = some ca →
        (∀ p, p ∈ ca.transitive_relpaths → p ∈ cb.transitive_relpaths) ∧
        (∀ p, ownMem cb p → p ∉ ca.transitive_relpaths) := by
  intro b a h
  induction h using Relation.TransGen.head_induction_on with
  | base hr =>
      intro cb ca hcb hca
      obtain ⟨cx, hcx, hmem⟩ := hr
      rw [hcb] at hcx
      injection hcx with hcx
      subst hcx
      have hmem2 := alookup_mem hcb
      obtain ⟨o1, o2, -⟩ := hinv.comp_inv _ hmem2
      obtain ⟨cm, hcm, hd⟩ := o1 a hmem
      rw [hca] at hcm
      injection hcm with hcm
      subst hcm
      constructor
      · intro p hp
        exact (o2 p).mpr (Or.inl ⟨a, hmem, ca, hca, hp⟩)
      · exact hd
  | ih hr htr hih =>
      intro cb ca hcb hca
      obtain ⟨cx, hcx, hmem⟩ := hr
      rw [hcb] at hcx
      injection hcx with hcx
      subst hcx
      have hmem2 := alookup_mem hcb
      obtain ⟨o1, o2, -⟩ := hinv.comp_inv _ hmem2
      obtain ⟨cm, hcm, hd⟩ := o1 _ hmem
      obtain ⟨hsub, -⟩ := hih cm ca hcm hca
      constructor
      · intro p hp
        exact (o2 p).mpr (Or.inl ⟨_, hmem, cm, hcm, hsub p hp⟩)
      · intro p hp hpa
        exact hd p hp (hsub p hpa)

lemma scan_pass_blocked (g : Glob) (fs : FS) (N : List String) :
    ∀ (W : List ComponentDescriptor) (s : ComponentScanner)
      (next : List ComponentDescriptor) (s' : ComponentScanner)
      (next' : List ComponentDescriptor),
      ComponentScanner.scan_pass g fs W s next = (s', next') →
      (∀ cd, cd ∈ W → cd.name ∈ N → ∃ m, m ∈ cd.extends_list ∧ m ∈ N) →
      (∀ n, n ∈ N → n ∉ keysOf s.components) →
      (∀ n, n ∈ N → n ∉ keysOf s'.components) ∧
      (∀ cd, cd ∈ next' → cd ∈ W ∨ cd ∈ next) ∧
      (∀ cd, cd ∈ next → cd ∈ next') ∧
      (∀ cd, cd ∈ W → cd.name ∈ N → cd ∈ next') := by
  intro W
  induction W with
  | nil =>
      intro s next s' next' h hb hk
      simp only [ComponentScanner.scan_pass, Prod.mk.injEq] at h
      obtain ⟨h1, h2⟩ := h
      subst h1 h2
      exact ⟨hk, fun cd hc => Or.inr hc, fun cd hc => hc,
        fun cd hc => absurd hc (List.not_mem_nil cd)⟩
  | cons cd rest ih =>
      intro s next s' next' h hb hk
      cases hres : ComponentScanner.resolve_extends s cd.extends_list with
      | some ext =>
          simp only [ComponentScanner.scan_pass, hres] at h
          have hNname : cd.name ∉ N := by
            intro hn
            obtain ⟨m, hm, hmN⟩ := hb cd (List.mem_cons_self _ _) hn
            obtain ⟨-, hr2⟩ := resolve_extends_spec s cd.extends_list ext hres
            obtain ⟨cm, -, hv⟩ := hr2 m hm
            exact hk m hmN (alookup_mem_keys hv)
          obtain ⟨cNew, hcomp, -⟩ :=
            populate_spec g fs s _ cd ext rfl
          have hk2 : ∀ n, n ∈ N →
              n ∉ keysOf (ComponentScanner.populate_component g fs s cd ext).components := by
            intro n hn hmem
            rw [hcomp, keysOf_append] at hmem
            rcases List.mem_append.mp hmem with hmem | hmem
            · exact hk n hn hmem
            · simp only [keysOf, List.map_cons, List.map_nil, List.mem_singleton] at hmem
              subst hmem
              exact hNname hn
          obtain ⟨c1, c2, c3, c4⟩ := ih _ _ _ _ h
            (fun cd2 hc => hb cd2 (List.mem_cons_of_mem _ hc)) hk2
          refine ⟨c1, ?_, c3, ?_⟩
          · intro cd2 hc
            rcases c2 cd2 hc with hc | hc
            · exact Or.inl (List.mem_cons_of_mem _ hc)
            · exact Or.inr hc
          · intro cd2 hc hn
            rcases List.mem_cons.mp hc with rfl | hc
            · exact absurd hn hNname
            · exact c4 cd2 hc hn
      | none =>
          simp only [ComponentScanner.scan_pass, hres] at h
          obtain ⟨c1, c2, c3, c4⟩ := ih _ _ _ _ h
            (fun cd2 hc => hb cd2 (List.mem_cons_of_mem _ hc)) hk
          refine ⟨c1, ?_, ?_, ?_⟩
          · intro cd2 hc
            rcases c2 cd2 hc with hc | hc
            · exact Or.inl (List.mem_cons_of_mem _ hc)
            · rcases List.mem_append.mp hc with hc | hc
              · exact Or.inr hc
              · rw [List.mem_singleton] at hc
                subst hc
                exact Or.inl (List.mem_cons_self _ _)
          · intro cd2 hc
            exact c3 cd2 (List.mem_append_left _ hc)
          · intro cd2 hc hn
            rcases List.mem_cons.mp hc with rfl | hc
            · exact c3 cd2 (List.mem_append_right _ (List.mem_singleton.mpr rfl))
            · exact c4 cd2 hc hn

lemma scan_loop_blocked (g : Glob) (fs : FS) (N : List String) :
    ∀ (fuel : Nat) (s : ComponentScanner) (W : List ComponentDescriptor),
      (∀ cd, cd ∈ W → cd.name ∈ N → ∃ m, m ∈ cd.extends_list ∧ m ∈ N) →
      (∀ n, n ∈ N → n ∉ keysOf s.components) →
      (∃ cd, cd ∈ W ∧ cd.name ∈ N) →
      ∃ R, ComponentScanner.scan_loop g fs fuel s W = .error (graph_error_message R) ∧
        (∀ cd, cd ∈ R → cd ∈ W) ∧
        (∀ cd, cd ∈ W → cd.name ∈ N → cd ∈ R) := by
  intro fuel
  induction fuel with
  | zero =>
      intro s W hb hk hne
      cases W with
      | nil =>
          obtain ⟨cd, hc, -⟩ := hne
          exact absurd hc (List.not_mem_nil cd)
      | cons cd rest =>
          exact ⟨cd :: rest, rfl, fun c hc => hc, fun c hc _ => hc⟩
  | succ fuel ih =>
      intro s W hb hk hne
      cases W with
      | nil =>
          obtain ⟨cd, hc, -⟩ := hne
          exact absurd hc (List.not_mem_nil cd)
      | cons cd rest =>
          rcases hp : ComponentScanner.scan_pass g fs (cd :: rest) s [] with ⟨s1, next⟩
          obtain ⟨b1, b2, -, b4⟩ := scan_pass_blocked g fs N _ _ _ _ _ hp hb hk
          simp only [ComponentScanner.scan_loop, hp]
          split
          · obtain ⟨R, hR, hRW, hRN⟩ := ih s1 next
              (fun cd2 hc hn => hb cd2 ((b2 cd2 hc).resolve_right
                (fun hc2 => absurd hc2 (List.not_mem_nil cd2))) hn)
              b1
              (by
                obtain ⟨cd0, hc0, hn0⟩ := hne
                exact ⟨cd0, b4 cd0 hc0 hn0, hn0⟩)
            refine ⟨R, hR, ?_, ?_⟩
            · intro c hc
              exact (b2 c (hRW c hc)).resolve_right
                (fun hc2 => absurd hc2 (List.not_mem_nil c))
            · intro c hc hn
              exact hRN c (b4 c hc hn) hn
          · refine ⟨next, rfl, ?_, b4⟩
            intro c hc
            exact (b2 c hc).resolve_right (fun hc2 => absurd hc2 (List.not_mem_nil c))

lemma process_entries_dest_mono (g : Glob) (bd : ComponentBasedirDescriptor) :
    ∀ (entries : List (String × DirEntry)) (dest dest' : PatternMatcher)
      (c c' : ComponentContents) (s s' : ComponentScanner),
      ComponentScanner.process_entries g bd entries dest c s = (dest', c', s') →
      ∀ p, p ∈ keysOf dest → p ∈ keysOf dest' := by
  intro entries
  induction entries with
  | nil =>
      intro dest dest' c c' s s' h p hp
      simp only [ComponentScanner.process_entries, Prod.mk.injEq] at h
      rw [← h.1]
      exact hp
  | cons pe rest ih =>
      intro dest dest' c c' s s' h p hp
      obtain ⟨q, e⟩ := pe
      by_cases h1 : q ∈ c.transitive_relpaths
      · simp only [ComponentScanner.process_entries, if_pos h1] at h
        exact ih _ _ _ _ _ _ h p hp
      · by_cases h2 : q ∈ keysOf s.all_entries
        all_goals by_cases h3 : bd.predicate.matches g q = true
        · simp only [ComponentScanner.process_entries, if_neg h1, if_pos h2, if_pos h3] at h
          refine ih _ _ _ _ _ _ h p ?_
          rw [keysOf_snoc]
          exact List.mem_append_left _ hp
        · simp only [ComponentScanner.process_entries, if_neg h1, if_pos h2, if_neg h3] at h
          exact ih _ _ _ _ _ _ h p hp
        · simp only [ComponentScanner.process_entries, if_neg h1, if_neg h2, if_pos h3] at h
          refine ih _ _ _ _ _ _ h p ?_
          rw [keysOf_snoc]
          exact List.mem_append_left _ hp
        · simp only [ComponentScanner.process_entries, if_neg h1, if_neg h2, if_neg h3] at h
          exact ih _ _ _ _ _ _ h p hp

lemma process_entries_dest_from (g : Glob) (bd : ComponentBasedirDescriptor) :
    ∀ (entries : List (String × DirEntry)) (dest dest' : PatternMatcher)
      (c c' : ComponentContents) (s s' : ComponentScanner),
      ComponentScanner.process_entries g bd entries dest c s = (dest', c', s') →
      ∀ p, p ∈ keysOf dest' → p ∈ keysOf dest ∨ ∃ e, (p, e) ∈ entries := by
  intro entries
  induction entries with
  | nil =>
      intro dest dest' c c' s s' h p hp
      simp only [ComponentScanner.process_entries, Prod.mk.injEq] at h
      rw [← h.1] at hp
      exact Or.inl hp
  | cons pe rest ih =>
      intro dest dest' c c' s s' h p hp
      obtain ⟨q, e⟩ := pe
      by_cases h1 : q ∈ c.transitive_relpaths
      · simp only [ComponentScanner.process_entries, if_pos h1] at h
        rcases ih _ _ _ _ _ _ h p hp with hq | ⟨e', he'⟩
        · exact Or.inl hq
        · exact Or.inr ⟨e', List.mem_cons_of_mem _ he'⟩
      · by_cases h2 : q ∈ keysOf s.all_entries
        all_goals by_cases h3 : bd.predicate.matches g q = true
        · simp only [ComponentScanner.process_entries, if_neg h1, if_pos h2, if_pos h3] at h
          rcases ih _ _ _ _ _ _ h p hp with hq | ⟨e', he'⟩
          · rw [keysOf_snoc] at hq
            rcases List.mem_append.mp hq with hq' | hq'
            · exact Or.inl hq'
            · rw [List.mem_singleton] at hq'
              subst hq'
              exact Or.inr ⟨e, List.mem_cons_self _ _⟩
          · exact Or.inr ⟨e', List.mem_cons_of_mem _ he'⟩
        · simp only [ComponentScanner.process_entries, if_neg h1, if_pos h2, if_neg h3] at h
          rcases ih _ _ _ _ _ _ h p hp with hq | ⟨e', he'⟩
          · exact Or.inl hq
          · exact Or.inr ⟨e', List.mem_cons_of_mem _ he'⟩
        · simp only [ComponentScanner.process_entries, if_neg h1, if_neg h2, if_pos h3] at h
          rcases ih _ _ _ _ _ _ h p hp with hq | ⟨e', he'⟩
          · rw [keysOf_snoc] at hq
            rcases List.mem_append.mp hq with hq' | hq'
            · exact Or.inl hq'
            · rw [List.mem_singleton] at hq'
              subst hq'
              exact Or.inr ⟨e, List.mem_cons_self _ _⟩
          · exact Or.inr ⟨e', List.mem_cons_of_mem _ he'⟩
        · simp only [ComponentScanner.process_entries, if_neg h1, if_neg h2, if_neg h3] at h
          rcases ih _ _ _ _ _ _ h p hp with hq | ⟨e', he'⟩
          · exact Or.inl hq
          · exact Or.inr ⟨e', List.mem_cons_of_mem _ he'⟩

lemma process_entries_populates (g : Glob) (bd : ComponentBasedirDescriptor) :
    ∀ (entries : List (String × DirEntry)) (dest dest' : PatternMatcher)
      (c c' : ComponentContents) (s s' : ComponentScanner),
      ComponentScanner.process_entries g bd entries dest c s = (dest', c', s') →
      (entries.map Prod.fst).Nodup →
      ∀ p e, (p, e) ∈ entries → p ∉ c.transitive_relpaths → p ∉ keysOf dest →
        (p ∈ keysOf dest' ↔ bd.predicate.matches g p = true) := by
  intro entries
  induction entries with
  | nil =>
      intro dest dest' c c' s s' h hnod p e hpe
      exact absurd hpe (List.not_mem_nil _)
  | cons qe rest ih =>
      intro dest dest' c c' s s' h hnod p e hpe hptrans hpdest
      obtain ⟨q, eq⟩ := qe
      simp only [List.map_cons, List.nodup_cons] at hnod
      obtain ⟨hqrest, hnodrest⟩ := hnod
      by_cases hqp : q = p
      · subst hqp
        -- the head entry is the one in question
        by_cases h1 : q ∈ c.transitive_relpaths
        · exact absurd h1 hptrans
        · by_cases h3 : bd.predicate.matches g q = true
          · constructor
            · intro _
              exact h3
            · intro _
              by_cases h2 : q ∈ keysOf s.all_entries
              · simp only [ComponentScanner.process_entries, if_neg h1, if_pos h2,
                  if_pos h3] at h
                refine process_entries_dest_mono g bd _ _ _ _ _ _ _ h q ?_
                rw [keysOf_snoc]
                exact List.mem_append_right _ (List.mem_singleton.mpr rfl)
              · simp only [ComponentScanner.process_entries, if_neg h1, if_neg h2,
                  if_pos h3] at h
                refine process_entries_dest_mono g bd _ _ _ _ _ _ _ h q ?_
                rw [keysOf_snoc]
                exact List.mem_append_right _ (List.mem_singleton.mpr rfl)
          · constructor
            · intro hq
              by_cases h2 : q ∈ keysOf s.all_entries
              · simp only [ComponentScanner.process_entries, if_neg h1, if_pos h2,
                  if_neg h3] at h
                rcases process_entries_dest_from g bd _ _ _ _ _ _ _ h q hq with hq' | ⟨e', he'⟩
                · exact absurd hq' hpdest
                · exact absurd (List.mem_map_of_mem Prod.fst he') hqrest
              · simp only [ComponentScanner.process_entries, if_neg h1, if_neg h2,
                  if_neg h3] at h
                rcases process_entries_dest_from g bd _ _ _ _ _ _ _ h q hq with hq' | ⟨e', he'⟩
                · exact absurd hq' hpdest
                · exact absurd (List.mem_map_of_mem Prod.fst he') hqrest
            · intro hq
              exact absurd hq h3
      · -- the head entry concerns a different relpath
        have hprest : (p, e) ∈ rest := by
          rcases List.mem_cons.mp hpe with hh | hh
          · rw [Prod.mk.injEq] at hh
            exact absurd hh.1.symm hqp
          · exact hh
        by_cases h1 : q ∈ c.transitive_relpaths
        · simp only [ComponentScanner.process_entries, if_pos h1] at h
          exact ih _ _ _ _ _ _ h hnodrest p e hprest hptrans hpdest
        · by_cases h2 : q ∈ keysOf s.all_entries
          all_goals by_cases h3 : bd.predicate.matches g q = true
          · simp only [ComponentScanner.process_entries, if_neg h1, if_pos h2, if_pos h3] at h
            refine ih _ _ _ _ _ _ h hnodrest p e hprest ?_ ?_
            · simp only [List.mem_append, List.mem_singleton]
              rintro (hp | rfl)
              · exact hptrans hp
              · exact hqp rfl
            · rw [keysOf_snoc]
              simp only [List.mem_append, List.mem_singleton]
              rintro (hp | rfl)
              · exact hpdest hp
              · exact hqp rfl
          · simp only [ComponentScanner.process_entries, if_neg h1, if_pos h2, if_neg h3] at h
            exact ih _ _ _ _ _ _ h hnodrest p e hprest hptrans hpdest
          · simp only [ComponentScanner.process_entries, if_neg h1, if_neg h2, if_pos h3] at h
            refine ih _ _ _ _ _ _ h hnodrest p e hprest ?_ ?_
            · simp only [List.mem_append, List.mem_singleton]
              rintro (hp | rfl)
              · exact hptrans hp
              · exact hqp rfl
            · rw [keysOf_snoc]
              simp only [List.mem_append, List.mem_singleton]
              rintro (hp | rfl)
              · exact hpdest hp
              · exact hqp rfl
          · simp only [ComponentScanner.process_entries, if_neg h1, if_neg h2, if_neg h3] at h
            exact ih _ _ _ _ _ _ h hnodrest p e hprest hptrans hpdest

lemma contains_iff_mem {l : List String} {a : String} : l.contains a = true ↔ a ∈ l :=
  List.elem_iff

lemma cc_first_missing_sound (missing : List String) (c : ComponentContents) :
    ∀ (l : List (String × PatternMatcher)) (bdn : String),
      ComponentContents.first_missing_required missing c l = some bdn →
      ∃ dest bdd, (bdn, dest) ∈ l ∧
        alookup c.component_descriptor.basedirs bdn = some bdd ∧
        bdn ∈ missing ∧ bdd.optional = false := by
  intro l
  induction l with
  | nil =>
      intro bdn h
      simp [ComponentContents.first_missing_required] at h
  | cons bp rest ih =>
      intro bdn h
      obtain ⟨b, pmv⟩ := bp
      cases halo : alookup c.component_descriptor.basedirs b with
      | none =>
          simp only [ComponentContents.first_missing_required, halo] at h
          obtain ⟨dest, bdd, hm, h2, h3, h4⟩ := ih bdn h
          exact ⟨dest, bdd, List.mem_cons_of_mem _ hm, h2, h3, h4⟩
      | some bdd0 =>
          by_cases hcond : (missing.contains b && !bdd0.optional) = true
          · simp only [ComponentContents.first_missing_required, halo, if_pos hcond] at h
            injection h with h
            subst h
            rw [Bool.and_eq_true, Bool.not_eq_true'] at hcond
            exact ⟨pmv, bdd0, List.mem_cons_self _ _, halo,
              contains_iff_mem.mp hcond.1, hcond.2⟩
          · simp only [ComponentContents.first_missing_required, halo, if_neg hcond] at h
            obtain ⟨dest, bdd, hm, h2, h3, h4⟩ := ih bdn h
            exact ⟨dest, bdd, List.mem_cons_of_mem _ hm, h2, h3, h4⟩

lemma cc_first_missing_none (missing : List String) (c : ComponentContents) :
    ∀ (l : List (String × PatternMatcher)),
      ComponentContents.first_missing_required missing c l = none →
      ∀ bdn dest bdd, (bdn, dest) ∈ l →
        alookup c.component_descriptor.basedirs bdn = some bdd →
        bdn ∈ missing → bdd.optional = false → False := by
  intro l
  induction l with
  | nil =>
      intro h bdn dest bdd hm
      exact absurd hm (List.not_mem_nil _)
  | cons bp rest ih =>
      intro h bdn dest bdd hm halk hmiss hopt
      obtain ⟨b, pmv⟩ := bp
      cases halo : alookup c.component_descriptor.basedirs b with
      | none =>
          simp only [ComponentContents.first_missing_required, halo] at h
          rcases List.mem_cons.mp hm with hm' | hm'
          · rw [Prod.mk.injEq] at hm'
            obtain ⟨rfl, -⟩ := hm'
            rw [halk] at halo
            cases halo
          · exact ih h bdn dest bdd hm' halk hmiss hopt
      | some bdd0 =>
          by_cases hcond : (missing.contains b && !bdd0.optional) = true
          · simp only [ComponentContents.first_missing_required, halo, if_pos hcond] at h
            cases h
          · simp only [ComponentContents.first_missing_required, halo, if_neg hcond] at h
            rcases List.mem_cons.mp hm with hm' | hm'
            · rw [Prod.mk.injEq] at hm'
              obtain ⟨rfl, -⟩ := hm'
              rw [halk] at halo
              injection halo with halo
              subst halo
              refine hcond ?_
              rw [Bool.and_eq_true, Bool.not_eq_true']
              exact ⟨contains_iff_mem.mpr hmiss, hopt⟩
            · exact ih h bdn dest bdd hm' halk hmiss hopt

lemma scanner_first_missing_sound (s : ComponentScanner) :
    ∀ (comps : List (String × ComponentContents)) (bdn cn : String),
      ComponentScanner.first_missing_required s comps = some (bdn, cn) →
      ∃ c, (cn, c) ∈ comps ∧
        ComponentContents.first_missing_required s.missing_basedirs c c.basedir_contents
          = some bdn := by
  intro comps
  induction comps with
  | nil =>
      intro bdn cn h
      simp [ComponentScanner.first_missing_required] at h
  | cons nc rest ih =>
      intro bdn cn h
      obtain ⟨cn0, c0⟩ := nc
      cases hin : ComponentContents.first_missing_required s.missing_basedirs c0
          c0.basedir_contents with
      | some b =>
          simp only [ComponentScanner.first_missing_required, hin, Option.some.injEq,
            Prod.mk.injEq] at h
          obtain ⟨rfl, rfl⟩ := h
          exact ⟨c0, List.mem_cons_self _ _, hin⟩
      | none =>
          simp only [ComponentScanner.first_missing_required, hin] at h
          obtain ⟨c, hm, h2⟩ := ih bdn cn h
          exact ⟨c, List.mem_cons_of_mem _ hm, h2⟩

lemma scanner_first_missing_none (s : ComponentScanner) :
    ∀ (comps : List (String × ComponentContents)),
      ComponentScanner.first_missing_required s comps = none →
      ∀ cn c, (cn, c) ∈ comps →
        ComponentContents.first_missing_required s.missing_basedirs c c.basedir_contents
          = none := by
  intro comps
  induction comps with
  | nil =>
      intro h cn c hm
      exact absurd hm (List.not_mem_nil _)
  | cons nc rest ih =>
      intro h cn c hm
      obtain ⟨cn0, c0⟩ := nc
      cases hin : ComponentContents.first_missing_required s.missing_basedirs c0
          c0.basedir_contents with
      | some b =>
          simp only [ComponentScanner.first_missing_required, hin] at h
          exact Option.noConfusion h
      | none =>
          simp only [ComponentScanner.first_missing_required, hin] at h
          rcases List.mem_cons.mp hm with hm' | hm'
          · rw [Prod.mk.injEq] at hm'
            obtain ⟨-, rfl⟩ := hm'
            exact hin
          · exact ih h cn c hm'

lemma mem_unmatched_files (s : ComponentScanner) (p : String) (e : DirEntry) :
    (p, e) ∈ s.unmatched_files ↔
      (p, e) ∈ s.all_entries ∧ p ∉ s.matched_relpaths ∧ e.isDir = false := by
  simp only [ComponentScanner.unmatched_files, List.mem_filter, Bool.and_eq_true,
    Bool.not_eq_true']
  constructor
  · rintro ⟨hm, hc, hd⟩
    refine ⟨hm, ?_, hd⟩
    intro hp
    rw [contains_iff_mem.mpr hp] at hc
    cases hc
  · rintro ⟨hm, hc, hd⟩
    refine ⟨hm, ?_, hd⟩
    cases hcc : s.matched_relpaths.contains p with
    | false => rfl
    | true => exact absurd (contains_iff_mem.mp hcc) hc

lemma mem_undeclared_relpaths (g : Glob) (ad : ArtifactDescriptor) (s : ComponentScanner)
    (p : String) :
    p ∈ ComponentScanner.undeclared_relpaths g ad s ↔
      ∃ e, (p, e) ∈ s.unmatched_files ∧ ad.options.unmatched_pattern.matches g p = true := by
  simp only [ComponentScanner.undeclared_relpaths, List.mem_map, List.mem_filter]
  constructor
  · rintro ⟨⟨q, e⟩, ⟨hm, hmt⟩, rfl⟩
    exact ⟨e, hm, hmt⟩
  · rintro ⟨e, hm, hmt⟩
    exact ⟨(p, e), ⟨hm, hmt⟩, rfl⟩

/-- Glob semantics used by the concrete scenarios: a pattern matches
exactly the path equal to it (any semantics is admissible for the
external primitive). -/
def globEq : Glob := fun pat path => pat == path

/-- Glob semantics in which no pattern matches anything. -/
def globNone : Glob := fun _ _ => false

/-- Filesystem with no directories at all. -/
def fsNone : FS := fun _ => none

/-- Component contents stored under a name in a scanner state, with a
vacuous default for absent names (used only to name concrete lookup
results). -/
def getComp (s : ComponentScanner) (n : String) : ComponentContents :=
  match alookup s.components n with
  | some c => c
  | none =>
      { component_descriptor := { name := "", extends_list := [], basedirs := [] }
        transitive_relpaths := []
        basedir_contents := [] }

/-- Scenario for the extension claims: `A` claims `f.txt` from `s1`;
`B` extends `A`, scans `s1` (patterns `f.txt`, `g.txt`) and `s2`
(pattern `f.txt`); `s2` holds a distinct physical `f.txt`; `h.txt`
stays unmatched. -/
def ad9 : ArtifactDescriptor := ArtifactDescriptor.ofRecord
  [("A", { extends_opt := some []
           basedirs := [("s1", { default_patterns := false, includes := ["f.txt"] })] }),
   ("B", { extends_opt := some ["A"]
           basedirs := [("s1", { default_patterns := false, includes := ["f.txt", "g.txt"] }),
                        ("s2", { default_patterns := false, includes := ["f.txt"] })] })]
  (OptionsDescriptor.ofRecord [] [])

def fs9 : FS := fun bd =>
  if bd = "s1" then some [("f.txt", ⟨false⟩), ("g.txt", ⟨false⟩), ("h.txt", ⟨false⟩)]
  else if bd = "s2" then some [("f.txt", ⟨false⟩)]
  else none

def s9 : ComponentScanner :=
  match ComponentScanner.run globEq fs9 ad9 with
  | .ok s => s
  | .error _ => ComponentScanner.init

/-- Scenario for C7: two components unrelated by extends, both scanning
basedir `s` with a pattern matching `f.txt`. -/
def adC7 : ArtifactDescriptor := ArtifactDescriptor.ofRecord
  [("X", { extends_opt := some []
           basedirs := [("s", { default_patterns := false, includes := ["f.txt"] })] }),
   ("Y", { extends_opt := some []
           basedirs := [("s", { default_patterns := false, includes := ["f.txt"] })] })]
  (OptionsDescriptor.ofRecord [] [])

def fsC7 : FS := fun bd => if bd = "s" then some [("f.txt", ⟨false⟩)] else none

def sC7 : ComponentScanner :=
  match ComponentScanner.run globEq fsC7 adC7 with
  | .ok s => s
  | .error _ => ComponentScanner.init

/-- Scenario for C2: a component whose basedir has no patterns at all
(empty include, exclude and force-include lists). -/
def adC2 : ArtifactDescriptor := ArtifactDescriptor.ofRecord
  [("X", { extends_opt := some []
           basedirs := [("s", { default_patterns := false })] })]
  (OptionsDescriptor.ofRecord [] [])

def fsC2 : FS := fun bd => if bd = "s" then some [("f.txt", ⟨false⟩)] else none

def sC2 : ComponentScanner :=
  match ComponentScanner.run globNone fsC2 adC2 with
  | .ok s => s
  | .error _ => ComponentScanner.init

/-- Scenario for C3: `X` declares one resolvable extend (`lib`) and one
reference to a non-existent component (`nope`). -/
def adDang : ArtifactDescriptor := ArtifactDescriptor.ofRecord
  [("X", { extends_opt := some ["lib", "nope"] })]
  (OptionsDescriptor.ofRecord [] [])

/-- The same declaration with the dangling reference removed. -/
def adOkX : ArtifactDescriptor := ArtifactDescriptor.ofRecord
  [("X", { extends_opt := some ["lib"] })]
  (OptionsDescriptor.ofRecord [] [])

/-- Scenario for the C3 witness: a two-cycle. -/
def adCyc : ArtifactDescriptor := ArtifactDescriptor.ofRecord
  [("X", { extends_opt := some ["Y"] }), ("Y", { extends_opt := some ["X"] })]
  (OptionsDescriptor.ofRecord [] [])

/-- Scenario for C5: one component with two non-optional basedirs, both
missing on disk. -/
def adC5 : ArtifactDescriptor := ArtifactDescriptor.ofRecord
  [("doc", { basedirs := [("a", {}), ("b", {})] })]
  (OptionsDescriptor.ofRecord [] [])

def sC5 : ComponentScanner :=
  match ComponentScanner.run globNone fsNone adC5 with
  | .ok s => s
  | .error _ => ComponentScanner.init

/-- C6: in any single scanner run, each distinct base-directory relpath
is walked at most once — the walk log (one element per filesystem walk)
has no duplicates — and the memoized result for a cached basedir is the
filesystem's actual content for it, reused on later references. -/
theorem C6_scan_memoization (g : Glob) (fs : FS) (ad : ArtifactDescriptor)
    (s : ComponentScanner) (h : ComponentScanner.run g fs ad = .ok s) :
    s.walk_log.Nodup ∧
    (∀ bd, List.count bd s.walk_log ≤ 1) ∧
    (∀ bd pm, alookup s.basedir_cache bd = some pm → fs bd = some pm) := by
  have hinv := run_inv g fs ad s h
  refine ⟨hinv.walk_nodup, ?_, hinv.cache_fs⟩
  intro bd
  exact List.nodup_iff_count_le_one.mp hinv.walk_nodup bd

/-- Witness for C6: the concrete two-basedir scenario, in which `s1` is
referenced by two components yet walked once. -/
theorem C6_scan_memoization_witness :
    ComponentScanner.run globEq fs9 ad9 = .ok s9 ∧
    s9.walk_log = ["s1", "s2"] ∧
    s9.walk_log.Nodup ∧
    (∀ bd, List.count bd s9.walk_log ≤ 1) ∧
    (∀ bd pm, alookup s9.basedir_cache bd = some pm → fs9 bd = some pm) := by
  have h := C6_scan_memoization globEq fs9 ad9 s9 rfl
  exact ⟨rfl, by decide, h.1, h.2.1, h.2.2⟩

/-- C10: after successful classification, every claimed relpath is a key
of the all-observed entry table, the claimed set is exactly the union of
the components' own per-basedir matched sets, and no claimed path is in
the unmatched set. -/
theorem C10_claimed_paths_observed (g : Glob) (fs : FS) (ad : ArtifactDescriptor)
    (s : ComponentScanner) (h : ComponentScanner.run g fs ad = .ok s) :
    (∀ p, p ∈ s.matched_relpaths → p ∈ keysOf s.all_entries) ∧
    (∀ p, p ∈ s.matched_relpaths ↔ ∃ nc, nc ∈ s.components ∧ ownMem nc.2 p) ∧
    (∀ p e, (p, e) ∈ s.unmatched_files → p ∉ s.matched_relpaths) := by
  have hinv := run_inv g fs ad s h
  refine ⟨hinv.matched_observed, fun p => ⟨hinv.matched_own p, ?_⟩, ?_⟩
  · rintro ⟨nc, hnc, hown⟩
    exact (hinv.comp_inv nc hnc).2.2 p hown
  · intro p e hpe
    exact ((mem_unmatched_files s p e).mp hpe).2.1

/-- Witness for C10 at the concrete scenario. -/
theorem C10_claimed_paths_observed_witness :
    ComponentScanner.run globEq fs9 ad9 = .ok s9 ∧
    "f.txt" ∈ s9.matched_relpaths ∧
    (∀ p, p ∈ s9.matched_relpaths → p ∈ keysOf s9.all_entries) ∧
    (∀ p, p ∈ s9.matched_relpaths ↔ ∃ nc, nc ∈ s9.components ∧ ownMem nc.2 p) ∧
    (∀ p e, (p, e) ∈ s9.unmatched_files → p ∉ s9.matched_relpaths) := by
  have h := C10_claimed_paths_observed globEq fs9 ad9 s9 rfl
  exact ⟨rfl, by decide, h.1, h.2.1, h.2.2⟩

/-- C1: after successful classification, for components `b` transitively
extending `a`: `a`'s claimed set is contained in `b`'s inherited claimed
set, `b`'s own per-basedir results avoid `a`'s claimed set entirely, and
every component's claimed set is exactly the union of its extended
components' claimed sets (the seed) plus its own matches. -/
theorem C1_partition_under_extension (g : Glob) (fs : FS) (ad : ArtifactDescriptor)
    (s : ComponentScanner) (h : ComponentScanner.run g fs ad = .ok s) :
    (∀ b a, ExtendsTrans s.components b a →
      ∀ cb ca, alookup s.components b = some cb → alookup s.components a = some ca →
        (∀ p, p ∈ ca.transitive_relpaths → p ∈ cb.transitive_relpaths) ∧
        (∀ bdn dest p, (bdn, dest) ∈ cb.basedir_contents → p ∈ keysOf dest →
          p ∉ ca.transitive_relpaths)) ∧
    (∀ nc, nc ∈ s.components → ∀ p,
      p ∈ nc.2.transitive_relpaths ↔
        (∃ m, m ∈ nc.2.component_descriptor.extends_list ∧
          ∃ cm, alookup s.components m = some cm ∧ p ∈ cm.transitive_relpaths) ∨
        ownMem nc.2 p) := by
  have hinv := run_inv g fs ad s h
  constructor
  · intro b a hext cb ca hcb hca
    obtain ⟨hsub, hdisj⟩ := inv_extends_facts hinv b a hext cb ca hcb hca
    exact ⟨hsub, fun bdn dest p hmem hp => hdisj p ⟨bdn, dest, hmem, hp⟩⟩
  · intro nc hnc
    exact (hinv.comp_inv nc hnc).2.1

/-- Witness for C1: in the concrete scenario, `B` extends `A`, `A`
claimed `f.txt`, and both the inclusion and the disjointness hold. -/
theorem C1_partition_under_extension_witness :
    ComponentScanner.run globEq fs9 ad9 = .ok s9 ∧
    Extends1 s9.components "B" "A" ∧
    "f.txt" ∈ (getComp s9 "A").transitive_relpaths ∧
    (∀ p, p ∈ (getComp s9 "A").transitive_relpaths →
      p ∈ (getComp s9 "B").transitive_relpaths) ∧
    (∀ bdn dest p, (bdn, dest) ∈ (getComp s9 "B").basedir_contents → p ∈ keysOf dest →
      p ∉ (getComp s9 "A").transitive_relpaths) := by
  have h := (C1_partition_under_extension globEq fs9 ad9 s9 rfl).1 "B" "A"
    (Relation.TransGen.single ⟨getComp s9 "B", rfl, by decide⟩)
    (getComp s9 "B") (getComp s9 "A") rfl rfl
  exact ⟨rfl, ⟨getComp s9 "B", rfl, by decide⟩, by decide, h.1, h.2⟩

/-- C9: claims are keyed by basedir-relative path alone — if `b`
transitively extends `a` and `a` claimed relpath `p` (from any basedir),
then `p` is absent from `b`'s own result of every one of `b`'s base
directories, even ones denoting different physical files. -/
theorem C9_claims_keyed_by_relpath (g : Glob) (fs : FS) (ad : ArtifactDescriptor)
    (s : ComponentScanner) (h : ComponentScanner.run g fs ad = .ok s) :
    ∀ b a, ExtendsTrans s.components b a →
      ∀ cb ca, alookup s.components b = some cb → alookup s.components a = some ca →
        ∀ p, p ∈ ca.transitive_relpaths →
          ∀ bdn dest, (bdn, dest) ∈ cb.basedir_contents → p ∉ keysOf dest := by
  have hinv := run_inv g fs ad s h
  intro b a hext cb ca hcb hca p hp bdn dest hmem hpk
  obtain ⟨-, hdisj⟩ := inv_extends_facts hinv b a hext cb ca hcb hca
  exact hdisj p ⟨bdn, dest, hmem, hpk⟩ hp

/-- Witness for C9: `s2` physically contains a distinct `f.txt` that
`B`'s `s2` pattern matches, yet `B` skips it in every basedir because
`A` claimed the relpath `f.txt` from `s1`. -/
theorem C9_claims_keyed_by_relpath_witness :
    ComponentScanner.run globEq fs9 ad9 = .ok s9 ∧
    Extends1 s9.components "B" "A" ∧
    fs9 "s2" = some [("f.txt", ⟨false⟩)] ∧
    globEq "f.txt" "f.txt" = true ∧
    "f.txt" ∈ (getComp s9 "A").transitive_relpaths ∧
    (∀ bdn dest, (bdn, dest) ∈ (getComp s9 "B").basedir_contents →
      "f.txt" ∉ keysOf dest) := by
  have h := C9_claims_keyed_by_relpath globEq fs9 ad9 s9 rfl "B" "A"
    (Relation.TransGen.single ⟨getComp s9 "B", rfl, by decide⟩)
    (getComp s9 "B") (getComp s9 "A") rfl rfl "f.txt" (by decide)
  exact ⟨rfl, ⟨getComp s9 "B", rfl, by decide⟩, rfl, rfl, by decide, h⟩

/-- Counterexample to C7 as stated: two components unrelated by extends
both scan basedir `s` and both claim relpath `f.txt` into their own
results. -/
theorem C7_counterexample :
    ComponentScanner.run globEq fsC7 adC7 = .ok sC7 ∧
    ("X" : String) ≠ "Y" ∧
    (∃ destX, ("s", destX) ∈ (getComp sC7 "X").basedir_contents ∧
      "f.txt" ∈ keysOf destX) ∧
    (∃ destY, ("s", destY) ∈ (getComp sC7 "Y").basedir_contents ∧
      "f.txt" ∈ keysOf destY) := by
  refine ⟨rfl, by decide, ⟨[("f.txt", ⟨false⟩)], by decide, by decide⟩,
    ⟨[("f.txt", ⟨false⟩)], by decide, by decide⟩⟩

/-- C7 as amended: the at-most-one-owner guarantee holds between
components related by transitive extension — if `b` transitively extends
`a`, no relpath appears in both components' own results for a shared
base directory (unrelated components may both claim a path). -/
theorem C7_one_owner_per_basedir (g : Glob) (fs : FS) (ad : ArtifactDescriptor)
    (s : ComponentScanner) (h : ComponentScanner.run g fs ad = .ok s) :
    ∀ b a, b ≠ a → ExtendsTrans s.components b a →
      ∀ cb ca, alookup s.components b = some cb → alookup s.components a = some ca →
        ∀ bdn dest dest2 p, (bdn, dest) ∈ cb.basedir_contents →
          (bdn, dest2) ∈ ca.basedir_contents →
          p ∈ keysOf dest → p ∉ keysOf dest2 := by
  have hinv := run_inv g fs ad s h
  intro b a hne hext cb ca hcb hca bdn dest dest2 p hmb hma hpb hpa
  obtain ⟨-, hdisj⟩ := inv_extends_facts hinv b a hext cb ca hcb hca
  have hown : ownMem ca p := ⟨bdn, dest2, hma, hpa⟩
  have hptrans : p ∈ ca.transitive_relpaths :=
    ((hinv.comp_inv (a, ca) (alookup_mem hca)).2.1 p).mpr (Or.inr hown)
  exact hdisj p ⟨bdn, dest, hmb, hpb⟩ hptrans

/-- Witness for the amended C7: `A` and `B` share basedir `s1`; `A` owns
`f.txt` there, `B` owns `g.txt`, and the theorem rules out any overlap. -/
theorem C7_one_owner_per_basedir_witness :
    ComponentScanner.run globEq fs9 ad9 = .ok s9 ∧
    ("B" : String) ≠ "A" ∧
    Extends1 s9.components "B" "A" ∧
    (∀ bdn dest dest2 p, (bdn, dest) ∈ (getComp s9 "B").basedir_contents →
      (bdn, dest2) ∈ (getComp s9 "A").basedir_contents →
      p ∈ keysOf dest → p ∉ keysOf dest2) := by
  have h := C7_one_owner_per_basedir globEq fs9 ad9 s9 rfl "B" "A" (by decide)
    (Relation.TransGen.single ⟨getComp s9 "B", rfl, by decide⟩)
    (getComp s9 "B") (getComp s9 "A") rfl rfl
  exact ⟨rfl, by decide, ⟨getComp s9 "B", rfl, by decide⟩, h⟩

/-- Counterexample to C2 as stated: a basedir with empty include,
exclude and force-include pattern lists claims `f.txt` although the path
matches zero force-include patterns and zero include patterns — the
claimed "matches at least one include pattern" is not necessary. -/
theorem C2_counterexample :
    ComponentScanner.run globNone fsC2 adC2 = .ok sC2 ∧
    (∃ dest, ("s", dest) ∈ (getComp sC2 "X").basedir_contents ∧
      "f.txt" ∈ keysOf dest) ∧
    (∃ bdd, alookup (getComp sC2 "X").component_descriptor.basedirs "s" = some bdd ∧
      any_match globNone bdd.predicate.force_includes "f.txt" = false ∧
      any_match globNone bdd.predicate.includes "f.txt" = false ∧
      any_match globNone bdd.predicate.excludes "f.txt" = false) := by
  refine ⟨rfl, ⟨[("f.txt", ⟨false⟩)], by decide, by decide⟩, ?_⟩
  exact ⟨ComponentBasedirDescriptor.ofRecord (ComponentDefaults.get "X") "s"
    { default_patterns := false }, by decide, by decide, by decide, by decide⟩

/-- C2 as amended: the pattern lists of a basedir predicate are the
explicit descriptor patterns followed (when `default_patterns` is
enabled) by the registry defaults; an unclaimed scanned entry is added
to the per-basedir result iff it matches a force-include pattern, or
(the include list is empty, or it matches an include pattern) and it
matches no exclude pattern; force-include beats exclude. -/
theorem C2_per_component_match_rule (g : Glob) (defaults : ComponentDefaults)
    (relpath : String) (rec : BasedirRecord) (bd : ComponentBasedirDescriptor)
    (hbd : bd = ComponentBasedirDescriptor.ofRecord defaults relpath rec) :
    (bd.predicate.includes =
      rec.includes ++ (if rec.default_patterns then defaults.includes else [])) ∧
    (bd.predicate.excludes =
      rec.excludes ++ (if rec.default_patterns then defaults.excludes else [])) ∧
    (bd.predicate.force_includes = rec.force_includes) ∧
    (∀ p, bd.predicate.matches g p = true ↔
      (any_match g bd.predicate.force_includes p = true ∨
        ((bd.predicate.includes = [] ∨ any_match g bd.predicate.includes p = true) ∧
          any_match g bd.predicate.excludes p = false))) ∧
    (∀ p, any_match g bd.predicate.force_includes p = true →
      bd.predicate.matches g p = true) ∧
    (∀ entries dest dest' c c' s s',
      ComponentScanner.process_entries g bd entries dest c s = (dest', c', s') →
      (entries.map Prod.fst).Nodup →
      ∀ p e, (p, e) ∈ entries → p ∉ c.transitive_relpaths → p ∉ keysOf dest →
        (p ∈ keysOf dest' ↔ bd.predicate.matches g p = true)) := by
  subst hbd
  refine ⟨rfl, rfl, rfl, ?_, ?_, ?_⟩
  · intro p
    simp only [MatchPredicate.matches, Bool.or_eq_true, Bool.and_eq_true,
      Bool.not_eq_true', List.isEmpty_iff]
  · intro p hp
    simp only [MatchPredicate.matches, hp, Bool.true_or]
  · intro entries dest dest' c c' s s' h hnod p e hpe hpt hpd
    exact process_entries_populates g _ entries dest dest' c c' s s' h hnod p e hpe hpt hpd

/-- Basedir descriptor for the C2 witness: includes empty, one exclude
pattern and one force-include pattern, both matching `f.txt`. -/
def bdC2w : ComponentBasedirDescriptor :=
  ComponentBasedirDescriptor.ofRecord {} "s"
    { default_patterns := false, excludes := ["f.txt"], force_includes := ["f.txt"] }

/-- Empty component contents used by the C2 witness. -/
def ccEmpty : ComponentContents :=
  { component_descriptor := { name := "X", extends_list := [], basedirs := [] }
    transitive_relpaths := [], basedir_contents := [] }

/-- Witness for the amended C2: an exclude pattern and a force-include
pattern both match `f.txt`; the entry is added — force-include beats
exclude. -/
theorem C2_per_component_match_rule_witness :
    bdC2w.predicate.excludes = ["f.txt"] ∧
    any_match globEq bdC2w.predicate.excludes "f.txt" = true ∧
    bdC2w.predicate.matches globEq "f.txt" = true ∧
    "f.txt" ∈ keysOf (ComponentScanner.process_entries globEq bdC2w
      [("f.txt", ⟨false⟩)] [] ccEmpty ComponentScanner.init).1 := by
  have h := C2_per_component_match_rule globEq {} "s"
    { default_patterns := false, excludes := ["f.txt"], force_includes := ["f.txt"] }
    bdC2w rfl
  refine ⟨rfl, by decide, h.2.2.2.2.1 "f.txt" (by decide), ?_⟩
  have hiff := h.2.2.2.2.2 [("f.txt", ⟨false⟩)] [] [("f.txt", (⟨false⟩ : DirEntry))]
    ccEmpty
    { component_descriptor := { name := "X", extends_list := [], basedirs := [] }
      transitive_relpaths := ["f.txt"], basedir_contents := [] }
    ComponentScanner.init
    { basedir_cache := [], components := [], all_entries := [("f.txt", ⟨false⟩)]
      matched_relpaths := ["f.txt"], missing_basedirs := [], walk_log := [] }
    (by decide) (by decide) "f.txt" ⟨false⟩ (by decide) (by decide) (by decide)
  exact hiff.mpr (h.2.2.2.2.1 "f.txt" (by decide))

/-- Counterexample to C3 as stated: component `X` declares
`extends = [lib, nope]`; the error pairs `X` with its full extends list
`lib|nope`, although `lib` is a perfectly resolvable component (dropping
`nope` makes the run succeed) — the listing is not restricted to the
unresolved entries. -/
theorem C3_counterexample :
    ComponentScanner.run globNone fsNone adDang =
      .error "The following components have non existing or circular extends: X -> lib|nope" ∧
    (ComponentScanner.run globNone fsNone adOkX).toOption.isSome = true :=
  ⟨rfl, rfl⟩

/-- C3 as amended: when a non-empty name set `N` is blocked — every
declared component named in `N` has some extends entry in `N` (as with a
cycle, or a reference to a name that never resolves) — the run fails
with the graph error listing every remaining component paired with its
full extends list; every `N`-named component remains unclassified and
appears in the listing.  Both cycles and dangling references instantiate
this single no-forward-progress mechanism. -/
theorem C3_graph_error_detection (g : Glob) (fs : FS) (ad : ArtifactDescriptor)
    (N : List String)
    (hb : ∀ nc, nc ∈ ad.components → nc.2.name ∈ N →
      ∃ m, m ∈ nc.2.extends_list ∧ m ∈ N)
    (hne : ∃ nc, nc ∈ ad.components ∧ nc.2.name ∈ N) :
    ∃ R, ComponentScanner.run g fs ad = .error (graph_error_message R) ∧
      (∀ cd, cd ∈ R → cd ∈ ad.components.map Prod.snd) ∧
      (∀ nc, nc ∈ ad.components → nc.2.name ∈ N → nc.2 ∈ R) := by
  obtain ⟨R, hR, hRW, hRN⟩ := scan_loop_blocked g fs N
    (ad.components.map Prod.snd).length ComponentScanner.init (ad.components.map Prod.snd)
    (by
      intro cd hcd hn
      obtain ⟨nc, hnc, rfl⟩ := List.mem_map.mp hcd
      exact hb nc hnc hn)
    (by
      intro n hn hk
      cases hk)
    (by
      obtain ⟨nc, hnc, hn⟩ := hne
      exact ⟨nc.2, List.mem_map_of_mem Prod.snd hnc, hn⟩)
  exact ⟨R, hR, hRW, fun nc hnc hn => hRN nc.2 (List.mem_map_of_mem Prod.snd hnc) hn⟩

/-- Witness for the amended C3: the two-cycle `X extends Y extends X`
fails with the graph error, and both cycle members remain unclassified
in the listing. -/
theorem C3_graph_error_detection_witness :
    (∀ nc, nc ∈ adCyc.components → nc.2.name ∈ ["X", "Y"] →
      ∃ m, m ∈ nc.2.extends_list ∧ m ∈ ["X", "Y"]) ∧
    (∃ nc, nc ∈ adCyc.components ∧ nc.2.name ∈ ["X", "Y"]) ∧
    (∃ R, ComponentScanner.run globNone fsNone adCyc = .error (graph_error_message R) ∧
      (∀ cd, cd ∈ R → cd ∈ adCyc.components.map Prod.snd) ∧
      (∀ nc, nc ∈ adCyc.components → nc.2.name ∈ ["X", "Y"] → nc.2 ∈ R)) := by
  refine ⟨by decide, ?_, ?_⟩
  · exact ⟨("X", ComponentDescriptor.ofRecord "X" { extends_opt := some ["Y"] }),
      by decide, by decide⟩
  · exact C3_graph_error_detection globNone fsNone adCyc ["X", "Y"] (by decide)
      ⟨("X", ComponentDescriptor.ofRecord "X" { extends_opt := some ["Y"] }),
        by decide, by decide⟩

/-- C4: with the missing-basedir check passing, the unmatched set is
observed-minus-claimed with directories excluded; verification fails iff
some unmatched file is accepted by the global unmatched predicate; the
failure message names the full undeclared list, which contains every
offender and nothing else (no truncation). -/
theorem C4_unmatched_verification (g : Glob) (ad : ArtifactDescriptor)
    (s : ComponentScanner)
    (hmiss : ComponentScanner.first_missing_required s s.components = none) :
    (∀ p e, (p, e) ∈ s.unmatched_files ↔
      (p, e) ∈ s.all_entries ∧ p ∉ s.matched_relpaths ∧ e.isDir = false) ∧
    ((∃ msg, ComponentScanner.verify g ad s = .error msg) ↔
      ∃ p e, (p, e) ∈ s.unmatched_files ∧
        ad.options.unmatched_pattern.matches g p = true) ∧
    (∀ msg, ComponentScanner.verify g ad s = .error msg →
      msg = "Unmatched artifact files. To allow these, add an " ++
        "options.unmatched_exclude list to the artifact descriptor: " ++
        String.intercalate ", " (ComponentScanner.undeclared_relpaths g ad s)) ∧
    (∀ p e, (p, e) ∈ s.unmatched_files →
      ad.options.unmatched_pattern.matches g p = true →
      p ∈ ComponentScanner.undeclared_relpaths g ad s) ∧
    (∀ p, p ∈ ComponentScanner.undeclared_relpaths g ad s →
      ∃ e, (p, e) ∈ s.unmatched_files ∧
        ad.options.unmatched_pattern.matches g p = true) := by
  have hver : ComponentScanner.verify g ad s =
      (if (ComponentScanner.undeclared_relpaths g ad s).isEmpty then Except.ok ()
       else Except.error ("Unmatched artifact files. To allow these, add an " ++
         "options.unmatched_exclude list to the artifact descriptor: " ++
         String.intercalate ", " (ComponentScanner.undeclared_relpaths g ad s))) := by
    simp only [ComponentScanner.verify, hmiss]
  refine ⟨mem_unmatched_files s, ?_, ?_, ?_, fun p => (mem_undeclared_relpaths g ad s p).mp⟩
  · by_cases hemp : (ComponentScanner.undeclared_relpaths g ad s).isEmpty = true
    · rw [hver, if_pos hemp]
      constructor
      · rintro ⟨msg, hm⟩
        exact Except.noConfusion hm
      · rintro ⟨p, e, hpe, hmt⟩
        have hp : p ∈ ComponentScanner.undeclared_relpaths g ad s :=
          (mem_undeclared_relpaths g ad s p).mpr ⟨e, hpe, hmt⟩
        rw [List.isEmpty_iff] at hemp
        rw [hemp] at hp
        exact absurd hp (List.not_mem_nil p)
    · rw [hver, if_neg hemp]
      constructor
      · intro _
        have hne : ComponentScanner.undeclared_relpaths g ad s ≠ [] := by
          intro hh
          rw [hh] at hemp
          exact hemp rfl
        obtain ⟨p, hp⟩ := List.exists_mem_of_ne_nil _ hne
        obtain ⟨e, hpe, hmt⟩ := (mem_undeclared_relpaths g ad s p).mp hp
        exact ⟨p, e, hpe, hmt⟩
      · intro _
        exact ⟨_, rfl⟩
  · intro msg hm
    rw [hver] at hm
    by_cases hemp : (ComponentScanner.undeclared_relpaths g ad s).isEmpty = true
    · rw [if_pos hemp] at hm
      exact Except.noConfusion hm
    · rw [if_neg hemp] at hm
      injection hm with hm
      exact hm.symm
  · intro p e hpe hmt
    exact (mem_undeclared_relpaths g ad s p).mpr ⟨e, hpe, hmt⟩

/-- Witness for C4: `h.txt` is unmatched under an empty policy, so
verification fails naming it. -/
theorem C4_unmatched_verification_witness :
    ComponentScanner.first_missing_required s9 s9.components = none ∧
    ("h.txt", (⟨false⟩ : DirEntry)) ∈ s9.unmatched_files ∧
    ad9.options.unmatched_pattern.matches globEq "h.txt" = true ∧
    (∃ msg, ComponentScanner.verify globEq ad9 s9 = .error msg) ∧
    (∀ msg, ComponentScanner.verify globEq ad9 s9 = .error msg →
      msg = "Unmatched artifact files. To allow these, add an " ++
        "options.unmatched_exclude list to the artifact descriptor: " ++
        String.intercalate ", " (ComponentScanner.undeclared_relpaths globEq ad9 s9)) ∧
    "h.txt" ∈ ComponentScanner.undeclared_relpaths globEq ad9 s9 := by
  have h := C4_unmatched_verification globEq ad9 s9 (by decide)
  exact ⟨by decide, by decide, by decide,
    h.2.1.mpr ⟨"h.txt", ⟨false⟩, by decide, by decide⟩, h.2.2.1,
    h.2.2.2.1 "h.txt" ⟨false⟩ (by decide) (by decide)⟩

/-- Counterexample to C5 as stated: two offending missing non-optional
basedirs (`a` and `b` of `doc`) exist, yet verification raises an error
naming only the first (`a`) — failures are not collected into one
batch. -/
theorem C5_counterexample :
    ComponentScanner.run globNone fsNone adC5 = .ok sC5 ∧
    (∃ c bdd, ("doc", c) ∈ sC5.components ∧
      ("a", ([] : PatternMatcher)) ∈ c.basedir_contents ∧
      alookup c.component_descriptor.basedirs "a" = some bdd ∧
      "a" ∈ sC5.missing_basedirs ∧ bdd.optional = false) ∧
    (∃ c bdd, ("doc", c) ∈ sC5.components ∧
      ("b", ([] : PatternMatcher)) ∈ c.basedir_contents ∧
      alookup c.component_descriptor.basedirs "b" = some bdd ∧
      "b" ∈ sC5.missing_basedirs ∧ bdd.optional = false) ∧
    ComponentScanner.verify globNone adC5 sC5 =
      .error "Directory a of doc: marked non-optional but does not exist" := by
  refine ⟨rfl, ?_, ?_, rfl⟩
  · exact ⟨getComp sC5 "doc",
      ComponentBasedirDescriptor.ofRecord (ComponentDefaults.get "doc") "a" {},
      by decide, by decide, by decide, by decide, by decide⟩
  · exact ⟨getComp sC5 "doc",
      ComponentBasedirDescriptor.ofRecord (ComponentDefaults.get "doc") "b" {},
      by decide, by decide, by decide, by decide, by decide⟩

/-- C5 as amended: whenever some populated basedir was recorded missing
and its descriptor is non-optional, verification fails immediately with
an error naming one such (basedir, component) pair — the first in
iteration order — rather than collecting all failures into a batch. -/
theorem C5_missing_basedir_verification (g : Glob) (ad : ArtifactDescriptor)
    (s : ComponentScanner)
    (hex : ∃ cn c bdn dest bdd, (cn, c) ∈ s.components ∧
      (bdn, dest) ∈ c.basedir_contents ∧
      alookup c.component_descriptor.basedirs bdn = some bdd ∧
      bdn ∈ s.missing_basedirs ∧ bdd.optional = false) :
    ∃ bdn cn, ComponentScanner.verify g ad s =
        .error ("Directory " ++ bdn ++ " of " ++ cn ++
          ": marked non-optional but does not exist") ∧
      ∃ c dest bdd, (cn, c) ∈ s.components ∧ (bdn, dest) ∈ c.basedir_contents ∧
        alookup c.component_descriptor.basedirs bdn = some bdd ∧
        bdn ∈ s.missing_basedirs ∧ bdd.optional = false := by
  cases hfm : ComponentScanner.first_missing_required s s.components with
  | none =>
      obtain ⟨cn, c, bdn, dest, bdd, hc, hbc, halk, hmiss, hopt⟩ := hex
      have hnone := scanner_first_missing_none s s.components hfm cn c hc
      exact (cc_first_missing_none s.missing_basedirs c c.basedir_contents hnone
        bdn dest bdd hbc halk hmiss hopt).elim
  | some bc =>
      obtain ⟨bdn, cn⟩ := bc
      refine ⟨bdn, cn, ?_, ?_⟩
      · simp only [ComponentScanner.verify, hfm]
      · obtain ⟨c, hc, hin⟩ := scanner_first_missing_sound s s.components bdn cn hfm
        obtain ⟨dest, bdd, h1, h2, h3, h4⟩ :=
          cc_first_missing_sound s.missing_basedirs c c.basedir_contents bdn hin
        exact ⟨c, dest, bdd, hc, h1, h2, h3, h4⟩

/-- Witness for the amended C5 at the concrete two-missing-basedir
scenario. -/
theorem C5_missing_basedir_verification_witness :
    (∃ cn c bdn dest bdd, (cn, c) ∈ sC5.components ∧
      (bdn, dest) ∈ c.basedir_contents ∧
      alookup c.component_descriptor.basedirs bdn = some bdd ∧
      bdn ∈ sC5.missing_basedirs ∧ bdd.optional = false) ∧
    (∃ bdn cn, ComponentScanner.verify globNone adC5 sC5 =
        .error ("Directory " ++ bdn ++ " of " ++ cn ++
          ": marked non-optional but does not exist") ∧
      ∃ c dest bdd, (cn, c) ∈ sC5.components ∧ (bdn, dest) ∈ c.basedir_contents ∧
        alookup c.component_descriptor.basedirs bdn = some bdd ∧
        bdn ∈ sC5.missing_basedirs ∧ bdd.optional = false) := by
  have hex : ∃ cn c bdn dest bdd, (cn, c) ∈ sC5.components ∧
      (bdn, dest) ∈ c.basedir_contents ∧
      alookup c.component_descriptor.basedirs bdn = some bdd ∧
      bdn ∈ sC5.missing_basedirs ∧ bdd.optional = false :=
    ⟨"doc", getComp sC5 "doc", "a", [],
      ComponentBasedirDescriptor.ofRecord (ComponentDefaults.get "doc") "a" {},
      by decide, by decide, by decide, by decide, by decide⟩
  exact ⟨hex, C5_missing_basedir_verification globNone adC5 sC5 hex⟩

lemma keysOf_filterMap_synth (P : String → Bool) (gf : String → ComponentDescriptor) :
    ∀ (l : List String),
      keysOf (l.filterMap (fun m => if P m then none else some (m, gf m))) =
        l.filter (fun n => !P n)
  | [] => rfl
  | a :: t => by
      have ht := keysOf_filterMap_synth P gf t
      simp only [keysOf] at ht ⊢
      cases h : P a with
      | true => simp [List.filterMap_cons, h, List.filter_cons, ht]
      | false => simp [List.filterMap_cons, h, List.filter_cons, ht]

lemma alookup_synth (P : String → Bool) (gf : String → ComponentDescriptor) :
    ∀ (l : List String) (n : String), n ∈ l → P n = false →
      alookup (l.filterMap (fun m => if P m then none else some (m, gf m))) n =
        some (gf n) := by
  intro l
  induction l with
  | nil =>
      intro n hn
      exact absurd hn (List.not_mem_nil n)
  | cons a t ih =>
      intro n hn hP
      rcases List.mem_cons.mp hn with rfl | hn
      · simp [List.filterMap_cons, hP, alookup]
      · cases hPa : P a with
        | true =>
            simp only [List.filterMap_cons, hPa, if_pos]
            exact ih n hn hP
        | false =>
            by_cases han : a = n
            · subst han
              simp [List.filterMap_cons, hPa, alookup]
            · simp only [List.filterMap_cons, hPa, if_neg, Bool.false_eq_true,
                not_false_eq_true, alookup]
              rw [if_neg han]
              exact ih n hn hP

/-- C8: parsing produces one descriptor per declared component plus a
synthesized empty one (zero basedirs, default extends) for every registry
default name absent from the document; every registry name — and hence
every default-extends-chain link — resolves in the resulting component
table. -/
theorem C8_auto_vivification (components_record : List (String × ComponentRecord))
    (options : OptionsDescriptor) :
    (∀ nr, nr ∈ components_record →
      (nr.1, ComponentDescriptor.ofRecord nr.1 nr.2) ∈
        (ArtifactDescriptor.ofRecord components_record options).components) ∧
    (keysOf (ArtifactDescriptor.ofRecord components_record options).components =
      components_record.map Prod.fst ++
        (ComponentDefaults.ALL.map Prod.fst).filter
          (fun n => !(components_record.map Prod.fst).contains n)) ∧
    (∀ n, n ∈ ComponentDefaults.ALL.map Prod.fst →
      n ∉ components_record.map Prod.fst →
      alookup (ArtifactDescriptor.ofRecord components_record options).components n =
          some (ComponentDescriptor.ofRecord n {}) ∧
        (ComponentDescriptor.ofRecord n {}).basedirs = [] ∧
        (ComponentDescriptor.ofRecord n {}).extends_list =
          (ComponentDefaults.get n).extends_list) ∧
    (∀ n, n ∈ ComponentDefaults.ALL.map Prod.fst →
      n ∈ keysOf (ArtifactDescriptor.ofRecord components_record options).components) ∧
    (∀ n m, n ∈ ComponentDefaults.ALL.map Prod.fst →
      m ∈ (ComponentDefaults.get n).extends_list →
      m ∈ keysOf (ArtifactDescriptor.ofRecord components_record options).components) := by
  have hdeclkeys :
      keysOf (components_record.map
        (fun nr => (nr.1, ComponentDescriptor.ofRecord nr.1 nr.2))) =
        components_record.map Prod.fst := by
    simp [keysOf, List.map_map]
  have hkeys : keysOf (ArtifactDescriptor.ofRecord components_record options).components =
      components_record.map Prod.fst ++
        (ComponentDefaults.ALL.map Prod.fst).filter
          (fun n => !(components_record.map Prod.fst).contains n) := by
    show keysOf (_ ++ _) = _
    rw [keysOf_append, hdeclkeys,
      keysOf_filterMap_synth (fun n => (components_record.map Prod.fst).contains n)
        (fun n => ComponentDescriptor.ofRecord n {})]
  have hmemdecl : ∀ n, n ∈ ComponentDefaults.ALL.map Prod.fst →
      n ∉ components_record.map Prod.fst →
      alookup (ArtifactDescriptor.ofRecord components_record options).components n =
        some (ComponentDescriptor.ofRecord n {}) := by
    intro n hreg hnd
    show alookup (_ ++ _) n = _
    rw [alookup_append_right (by rw [hdeclkeys]; exact hnd)]
    refine alookup_synth _ _ _ n hreg ?_
    cases hc : (components_record.map Prod.fst).contains n with
    | false => rfl
    | true => exact absurd (contains_iff_mem.mp hc) hnd
  have hresolve : ∀ n, n ∈ ComponentDefaults.ALL.map Prod.fst →
      n ∈ keysOf (ArtifactDescriptor.ofRecord components_record options).components := by
    intro n hreg
    rw [hkeys]
    by_cases hnd : n ∈ components_record.map Prod.fst
    · exact List.mem_append_left _ hnd
    · refine List.mem_append_right _ ?_
      refine List.mem_filter.mpr ⟨hreg, ?_⟩
      cases hc : (components_record.map Prod.fst).contains n with
      | false => rfl
      | true => exact absurd (contains_iff_mem.mp hc) hnd
  have hchain : ∀ n, n ∈ ComponentDefaults.ALL.map Prod.fst →
      ∀ m, m ∈ (ComponentDefaults.get n).extends_list →
        m ∈ ComponentDefaults.ALL.map Prod.fst := by decide
  refine ⟨?_, hkeys, fun n hreg hnd => ⟨hmemdecl n hreg hnd, rfl, rfl⟩, hresolve,
    fun n m hreg hm => hresolve m (hchain n hreg m hm)⟩
  intro nr hnr
  exact List.mem_append_left _
    (List.mem_map_of_mem (fun nr => (nr.1, ComponentDescriptor.ofRecord nr.1 nr.2)) hnr)

/-- Descriptor declaring only `lib`, for the C8 witness. -/
def adLibOnly : ArtifactDescriptor :=
  ArtifactDescriptor.ofRecord [("lib", {})] (OptionsDescriptor.ofRecord [] [])

/-- Witness for C8: declaring only `lib` still yields a resolvable,
zero-basedir descriptor for every other registry name. -/
theorem C8_auto_vivification_witness :
    ("lib", ComponentDescriptor.ofRecord "lib" {}) ∈ adLibOnly.components ∧
    alookup adLibOnly.components "doc" = some (ComponentDescriptor.ofRecord "doc" {}) ∧
    (ComponentDescriptor.ofRecord "doc" {}).basedirs = [] ∧
    keysOf adLibOnly.components = ["lib", "run", "dbg", "dev", "doc"] ∧
    (∀ n, n ∈ ComponentDefaults.ALL.map Prod.fst → n ∈ keysOf adLibOnly.components) ∧
    (∀ n m, n ∈ ComponentDefaults.ALL.map Prod.fst →
      m ∈ (ComponentDefaults.get n).extends_list → m ∈ keysOf adLibOnly.components) := by
  have h := C8_auto_vivification [("lib", {})] (OptionsDescriptor.ofRecord [] [])
  exact ⟨h.1 ("lib", {}) (by decide), (h.2.2.1 "doc" (by decide) (by decide)).1,
    by decide, by decide, h.2.2.2.1, h.2.2.2.2⟩
